import Mathlib

/-!
Verification of the scp (soul copy protocol) core against its design
specification.  The TypeScript sources are shallowly embedded: byte buffers
become `List Nat` (each element a byte value), machine integers become
`Nat`/`Int` with explicit JavaScript semantics (truncating remainder,
relative `subarray` indices), fallible operations return `Option`/`Except`,
and the wall clock (`Date.now`) is passed explicitly as an `mtime`
parameter.  File-system writes performed by `extract` are reified as an
explicit list of (path, bytes) write operations so that the write phase can
be reasoned about.
-/

set_option maxRecDepth 10000

namespace SCP

/-! ## Byte-level helpers shared by the tar codec -/

/-- Little-endian octal digit bytes of `n`; the first argument is fuel
(`n` itself is always enough, since the digit count of `n` is at most `n`). -/
def octDigitsRev : Nat → Nat → List Nat
  | 0, _ => []
  | fuel + 1, n => if n = 0 then [] else (n % 8 + 48) :: octDigitsRev fuel (n / 8)

/-- ASCII byte string of the octal rendering of `n`, as produced by
JavaScript `n.toString(8)` for a non-negative integer. -/
def octStr (n : Nat) : List Nat :=
  if n = 0 then [48] else (octDigitsRev n n).reverse

/-- Left padding with byte `c` up to length `len`, as in `String.prototype.padStart`. -/
def leftPad (c len : Nat) (l : List Nat) : List Nat :=
  List.replicate (len - l.length) c ++ l

/-- The source helper `padOctal(n, len)`: `n.toString(8).padStart(len - 1, '0') + '\0'`. -/
def padOctal (n len : Nat) : List Nat :=
  leftPad 48 (len - 1) (octStr n) ++ [0]

/-- A `len`-byte header field holding `padOctal n len`; `Buffer.write` writes at
most `len` bytes into the field. -/
def octField (n len : Nat) : List Nat :=
  (padOctal n len).take len

/-- A `len`-byte header field holding the given name bytes, NUL-padded: the
header buffer is zero-initialised and `Buffer.write` stores at most `len`
bytes of the name. -/
def fieldBytes (name : List Nat) (len : Nat) : List Nat :=
  name.take len ++ List.replicate (len - (name.take len).length) 0

/-- The source `headerChecksum`: the sum of the 512 header bytes with the
checksum field (offsets 148-155) replaced by eight ASCII spaces (value 32).
On the 512-byte headers built by `pack` this take/drop form agrees with the
index loop of the source. -/
def headerChecksum (h : List Nat) : Nat :=
  (h.take 148).sum + 8 * 32 + (h.drop 156).sum

/-! ## Tar encoder (`pack` in the source) -/

/-- The 512-byte header block of `pack` before the checksum field is filled
in: a zeroed buffer with name (offset 0), mode 0644 (100), uid 0 (108),
gid 0 (116), size (124), mtime (136), typeflag `0` (156), magic `ustar\0`
(257) and version `00` (263) written into it. -/
def mkHeaderPre (name : List Nat) (dataLen mtime : Nat) : List Nat :=
  fieldBytes name 100 ++ octField 420 8 ++ octField 0 8 ++ octField 0 8 ++
    octField dataLen 12 ++ octField mtime 12 ++ List.replicate 8 0 ++ [48] ++
    List.replicate 100 0 ++ [117, 115, 116, 97, 114, 0] ++ [48, 48] ++
    List.replicate 247 0

/-- The finished header block of `pack`: the seven bytes of
`padOctal(checksum, 7)` are written at offset 148 and byte 155 is set to
an ASCII space (32). -/
def mkHeader (name : List Nat) (dataLen mtime : Nat) : List Nat :=
  let h0 := mkHeaderPre name dataLen mtime
  h0.take 148 ++ octField (headerChecksum h0) 7 ++ [32] ++ h0.drop 156

/-- One entry of the tar stream: header block, data bytes, zero padding to
the next 512-byte boundary. -/
def packEntry (mtime : Nat) (e : List Nat × List Nat) : List Nat :=
  mkHeader e.1 e.2.length mtime ++ e.2 ++
    (if e.2.length % 512 = 0 then [] else List.replicate (512 - e.2.length % 512) 0)

/-- The source `pack`: concatenated entries followed by two all-zero
512-byte terminator blocks.  `mtime` is the wall-clock seconds value that
the source reads from `Date.now()` at encode time. -/
def pack (entries : List (List Nat × List Nat)) (mtime : Nat) : List Nat :=
  (entries.map (packEntry mtime)).flatten ++ List.replicate 1024 0

/-! ## Tar decoder (`extract` in the source) -/

/-- `Buffer.subarray` with the ECMAScript relative-index semantics: a
negative index counts from the end of the buffer, then both indices are
clamped to `[0, length]` and an empty slice results when they cross. -/
def jsSub (l : List Nat) (s e : Int) : List Nat :=
  let len : Int := l.length
  let s1 := if s < 0 then max (len + s) 0 else min s len
  let e1 := if e < 0 then max (len + e) 0 else min e len
  if s1 < e1 then (l.drop s1.toNat).take (e1 - s1).toNat else []

/-- Strip trailing NUL bytes, as the regular expression replace of the
source does on the decoded field text. -/
def stripTrailZeros (l : List Nat) : List Nat :=
  (l.reverse.dropWhile (· = 0)).reverse

/-- ASCII whitespace bytes removed by `String.prototype.trim`. -/
def isWsByte (b : Nat) : Bool :=
  b = 32 || b = 9 || b = 10 || b = 11 || b = 12 || b = 13

/-- Byte-level `String.prototype.trim` (ASCII whitespace). -/
def trimBytes (l : List Nat) : List Nat :=
  ((l.dropWhile isWsByte).reverse.dropWhile isWsByte).reverse

/-- Octal digit bytes accepted by `parseInt(s, 8)`. -/
def isOctDigitB (b : Nat) : Bool :=
  decide (48 ≤ b) && decide (b ≤ 55)

/-- Value of a list of octal digit bytes. -/
def octVal (l : List Nat) : Nat :=
  l.foldl (fun acc d => acc * 8 + (d - 48)) 0

/-- Longest leading run of octal digits of the input, `none` when there is
no digit. -/
def parseOctDigits (l : List Nat) : Option Nat :=
  let ds := l.takeWhile isOctDigitB
  if ds.isEmpty then none else some (octVal ds)

/-- `parseInt(s, 8)` of the source at byte level: an optional sign followed
by the longest leading run of octal digits; `none` is NaN. -/
def parseIntOct : List Nat → Option Int
  | [] => none
  | b :: rest =>
    if b = 45 then (parseOctDigits rest).map (fun n => -(n : Int))
    else if b = 43 then (parseOctDigits rest).map (fun n => (n : Int))
    else (parseOctDigits (b :: rest)).map (fun n => (n : Int))

/-- The scanning loop of the source `extract`, with explicit fuel: the
source `while` loop has no termination guarantee (the offset can fail to
advance when a size field parses negative), so one fuel unit is spent per
iteration and `none` reports that the fuel ran out, i.e. the source loop
would still be running.  JavaScript `%` on possibly negative sizes is the
truncating remainder `Int.tmod`. -/
def extractLoop (tar : List Nat) : Nat → Int → List (List Nat × List Nat) →
    Option (List (List Nat × List Nat))
  | 0, _, _ => none
  | fuel + 1, offset, acc =>
    if offset + 512 ≤ (tar.length : Int) then
      let header := jsSub tar offset (offset + 512)
      if header.all (· = 0) then
        some acc.reverse
      else
        let name := stripTrailZeros (jsSub header 0 100)
        let sizeStr := trimBytes (stripTrailZeros (jsSub header 124 136))
        match parseIntOct sizeStr with
        | none => some acc.reverse
        | some size =>
          let dataStart := offset + 512
          let data := jsSub tar dataStart (dataStart + size)
          let rem := Int.tmod size 512
          let newOff := dataStart + size + (if 0 < rem then 512 - rem else 0)
          extractLoop tar fuel newOff ((name, data) :: acc)
    else
      some acc.reverse

/-- Run the decoder loop from the start of the buffer with the given fuel. -/
def tarExtract (tar : List Nat) (fuel : Nat) : Option (List (List Nat × List Nat)) :=
  extractLoop tar fuel 0 []

/-- The decoded entry list of the source `extract`; the fuel
`tar.length / 512 + 1` bounds the number of loop iterations whenever every
size field encountered parses non-negatively, because each such iteration
advances the offset by at least 512 bytes. -/
def tarDecode (tar : List Nat) : Option (List (List Nat × List Nat)) :=
  tarExtract tar (tar.length / 512 + 1)

/-- The source `extract` terminates on `tar`: some finite amount of fuel
lets the loop reach one of its exits. -/
def tarTerminates (tar : List Nat) : Prop :=
  ∃ fuel res, tarExtract tar fuel = some res

/-- Zero padding emitted by `pack` after an entry of `d` data bytes. -/
def padBlock (d : Nat) : List Nat :=
  if d % 512 = 0 then [] else List.replicate (512 - d % 512) 0

/-- A single 512-byte block whose size field (offset 124) reads `-1000`:
`parseInt` yields the octal value -512, so the decoder loop advances by
512 bytes for the header and then steps back 512 bytes, returning to
offset 0 forever. -/
def loopTar : List Nat :=
  List.replicate 124 0 ++ [45, 49, 48, 48, 48] ++ List.replicate 383 0

/-! ## Content hashing (ChecksumService) -/

/-- Modelled from the spec: the §4.2 `digest` operation is a
collision-resistant content hash with fixed-length hex output — SHA-256
from `node:crypto`, which is not part of `src/`.  The model keeps its two
contract-relevant properties, determinism and ideal collision resistance
(injectivity), by tagging the input text. -/
def sha256 (data : String) : String :=
  String.append ("sha256(") (String.append data (")"))

/-- Modelled from the spec: the digest of raw file bytes (`sha256(Buffer)`
in the source); the byte list is rendered to text and hashed. -/
def sha256Bytes (data : List Nat) : String :=
  sha256 (String.intercalate (",") (data.map toString))

/-! ## Locale collation (String.prototype.localeCompare) -/

/-- Modelled from the spec: `String.prototype.localeCompare` with no
arguments compares by the default-locale collation (ECMA-402 / CLDR root).
Restricted to ASCII, the primary pass folds uppercase letters onto
lowercase. -/
def charPrim (c : Char) : Nat :=
  if 65 ≤ c.toNat ∧ c.toNat ≤ 90 then c.toNat + 32 else c.toNat

/-- Modelled from the spec: the tertiary (case) pass of the default
collation orders lowercase before uppercase. -/
def charCaseKey (c : Char) : Nat :=
  if 65 ≤ c.toNat ∧ c.toNat ≤ 90 then 1 else 0

/-- Lexicographic comparison of key sequences. -/
def listCmp : List Nat → List Nat → Ordering
  | [], [] => .eq
  | [], _ :: _ => .lt
  | _ :: _, [] => .gt
  | a :: as, b :: bs =>
    match compare a b with
    | .eq => listCmp as bs
    | o => o

/-- Modelled from the spec: `a.localeCompare(b)` as an `Ordering` — the
primary (case-folded) key sequences are compared first and ties are broken
by the case keys. -/
def localeCmp (a b : String) : Ordering :=
  match listCmp (a.data.map charPrim) (b.data.map charPrim) with
  | .eq => listCmp (a.data.map charCaseKey) (b.data.map charCaseKey)
  | o => o

/-! ## The checksum service (`checksum.ts`) -/

/-- A manifest file record: relative path, hex digest, byte size. -/
structure FileEntry where
  path : String
  sha256 : String
  size : Nat
deriving DecidableEq

/-- The comparator `(a, b) => a.path.localeCompare(b.path)` of
`soulChecksum`, read as the relation "a need not come strictly after b".
JavaScript `Array.prototype.sort` is a stable comparison sort; for a
transitive and total comparator every stable sort returns the same list,
so the sort is modelled by insertion sort (structural recursion). -/
def lcR (a b : FileEntry) : Prop :=
  localeCmp a.path b.path ≠ Ordering.gt

instance : DecidableRel lcR :=
  fun a b => inferInstanceAs (Decidable (localeCmp a.path b.path ≠ Ordering.gt))

/-- Strict collation order on entry paths. -/
def pathLt (a b : FileEntry) : Prop :=
  localeCmp a.path b.path = Ordering.lt

/-- Distinct paths, pairwise. -/
def distinctPaths (l : List FileEntry) : Prop :=
  l.Pairwise (fun a b => a.path ≠ b.path)

/-- The source `soulChecksum`: copy the array, sort it by
`path.localeCompare`, concatenate the `sha256` fields in sorted order and
hash the concatenation. -/
def soulChecksum (files : List FileEntry) : String :=
  sha256 (String.join ((List.insertionSort lcR files).map (fun f => f.sha256)))

/-- The call-by-reference shape of `soulChecksum`: the source copies the
argument array with a spread (`[...files]`) and sorts only the copy in
place, so the caller's array is unchanged when the call returns.  The pair
holds (result, contents of the caller's array after the call). -/
def soulChecksumRun (files : List FileEntry) : String × List FileEntry :=
  let copied := files.foldr (fun x acc => x :: acc) []
  let sorted := List.insertionSort lcR copied
  (sha256 (String.join (sorted.map (fun f => f.sha256))), files)

/-- Byte-lexicographic order on entry paths (UTF-8 byte order coincides
with code point order), as the spec words §4.2. -/
def bLexR (a b : FileEntry) : Prop :=
  listCmp (a.path.data.map Char.toNat) (b.path.data.map Char.toNat) ≠ Ordering.gt

instance : DecidableRel bLexR :=
  fun a b => inferInstanceAs
    (Decidable (listCmp (a.path.data.map Char.toNat) (b.path.data.map Char.toNat) ≠
      Ordering.gt))

/-- Written from the spec words of §4.2 for comparison with the source:
sort entries by path under byte-lexicographic ordering, concatenate the
digest strings in that order, hash the concatenation. -/
def aggregateSpec (files : List FileEntry) : String :=
  sha256 (String.join ((List.insertionSort bLexR files).map (fun f => f.sha256)))

/-- The spec-worded aggregate with the ordering the source actually uses:
sort entries by the default-locale collation of their paths, concatenate
the digest strings in that order, hash the concatenation. -/
def aggregateColl (files : List FileEntry) : String :=
  sha256 (String.join ((List.insertionSort lcR files).map (fun f => f.sha256)))

/-! ## The archive codec (`archive.ts`) -/

/-- The manifest record of `manifest.ts`. -/
structure SoulManifest where
  version : String
  agent : String
  source : String
  timestamp : String
  files : List FileEntry
  checksum : String
deriving DecidableEq

/-- A decoded tar entry at the archive layer: entry name as text and raw
data bytes. -/
structure StrEntry where
  name : String
  data : List Nat
deriving DecidableEq

/-- The failures thrown by `extractSoulArchive`, in the order its checks
run. -/
inductive ExtractError
  | missingManifest
  | manifestParseError
  | missingFile (path : String)
  | integrityFailure (subject expected actual : String)
deriving DecidableEq

/-- The per-file verification loop of `extractSoulArchive`: for each
manifest file entry, find the tar entry with exactly that name (throwing
when absent), recompute its digest and throw on mismatch; the first failing
check aborts. -/
def verifyFiles (entries : List StrEntry) : List FileEntry → Option ExtractError
  | [] => none
  | f :: rest =>
    match entries.find? (fun e => e.name == f.path) with
    | none => some (.missingFile f.path)
    | some e =>
      let hash := sha256Bytes e.data
      if hash ≠ f.sha256 then some (.integrityFailure f.path f.sha256 hash)
      else verifyFiles entries rest

/-- The source `extractSoulArchive`, from the decoded entry list on: the
file read, gunzip and tar decode stages are the byte-level models above and
determine `entries`; `parseManifest` stands for `JSON.parse` (outside
`src/`, modelled from the spec: "Parse it into a Manifest").  The first
component collects the (path, bytes) write operations the call performs
under the output path — the write phase runs only after every verification
step has passed and `dryRun` is false; the second component is the returned
manifest or the thrown error. -/
def extractSoulArchive (parseManifest : List Nat → Option SoulManifest)
    (entries : List StrEntry) (dryRun : Bool) :
    List (String × List Nat) × Except ExtractError SoulManifest :=
  match entries.find? (fun e => e.name == "manifest.json") with
  | none => ([], .error .missingManifest)
  | some mEntry =>
    match parseManifest mEntry.data with
    | none => ([], .error .manifestParseError)
    | some manifest =>
      match verifyFiles entries manifest.files with
      | some err => ([], .error err)
      | none =>
        let computed := soulChecksum manifest.files
        if computed ≠ manifest.checksum then
          ([], .error (.integrityFailure ("aggregate") manifest.checksum computed))
        else if dryRun then
          ([], .ok manifest)
        else
          ((("manifest.json"), mEntry.data) ::
              manifest.files.map (fun f =>
                (f.path,
                  ((entries.find? (fun e => e.name == f.path)).map (fun e => e.data)).getD [])),
            .ok manifest)

/-! ## The transfer protocol server (`server.ts`) -/

/-- The request data the dispatcher looks at. -/
structure STPRequest where
  url : String
  method : String
  authorization : Option String

/-- The source `checkAuth`: the authorization header is split on spaces
with limit 2; the scheme must be the word Bearer and the value must equal
the configured token; a missing header fails. -/
def checkAuth (req : STPRequest) (token : String) : Bool :=
  match req.authorization with
  | none => false
  | some auth =>
    let parts := (auth.splitOn (" ")).take 2
    let scheme := parts.head?
    let value := (parts.drop 1).head?
    scheme == some ("Bearer") && value == some token

/-- Where the dispatcher of `createSTPServer` sends a request: a direct
response (health, 401, 404) or one of the three authenticated handlers. -/
inductive RouteResult
  | health
  | unauthorized
  | opGetManifest
  | opGetSoul
  | opPutSoul
  | notFound
deriving DecidableEq

/-- The request dispatch of `createSTPServer`: health is served without
authentication; any other request is answered 401 before a handler runs
when `checkAuth` fails; then the three soul operations are routed and
anything else is 404. -/
def routeRequest (token : String) (req : STPRequest) : RouteResult :=
  if req.url == ("/health") && req.method == ("GET") then .health
  else if ! checkAuth req token then .unauthorized
  else if req.url == ("/soul/manifest") && req.method == ("GET") then .opGetManifest
  else if req.url == ("/soul") && req.method == ("GET") then .opGetSoul
  else if req.url == ("/soul") && req.method == ("PUT") then .opPutSoul
  else .notFound

/-- Status code of the responses the dispatcher sends itself; the routed
operations answer from their handlers. -/
def routeStatus : RouteResult → Option Nat
  | .health => some 200
  | .unauthorized => some 401
  | .notFound => some 404
  | _ => none

/-! ## The transfer protocol client (`client.ts`) -/

/-- `Response.ok` of the fetch API: status in the 2xx range. -/
def respOk (status : Nat) : Bool :=
  decide (200 ≤ status) && decide (status < 300)

/-- The failures a client call can surface.  The `unauthorized` constructor
renders the distinct typed Unauthorized failure the spec posits for 401
responses; the claims examine whether the code ever produces it.
`requestFailed` is a thrown message of the form "<context>: <status>";
`serverMessage` is a thrown server-supplied error string; `extractFailed`
re-raises a verification failure of the downloaded archive. -/
inductive ClientError
  | unauthorized
  | requestFailed (context : String) (status : Nat)
  | serverMessage (msg : String)
  | extractFailed (e : ExtractError)
deriving DecidableEq

/-- The client `manifest()` on a received response: a non-ok status throws
the generic status-carrying failure, an ok response returns the parsed
manifest body. -/
def clientManifest (status : Nat) (body : SoulManifest) : Except ClientError SoulManifest :=
  if respOk status then .ok body
  else .error (.requestFailed ("Manifest request failed") status)

/-- The client `pull()` on a received response: a non-ok status throws the
generic status-carrying failure; on ok the downloaded bytes are saved and
verified via `extract(..., dryRun = true)`, whose outcome is `verified`,
before any manifest is returned. -/
def clientPull (status : Nat) (verified : Except ExtractError SoulManifest) :
    Except ClientError SoulManifest :=
  if respOk status then verified.mapError .extractFailed
  else .error (.requestFailed ("Pull failed") status)

/-- The response body shape of a push. -/
structure PushResult where
  okFlag : Bool
  message : String
  manifestFiles : Nat
  manifestChecksum : String
deriving DecidableEq

/-- The client `push()` on a response with parsed JSON body: ok returns the
body; otherwise the thrown message is the body's error field when present
and non-empty (JavaScript truthiness of `result.error`), else the generic
status-carrying failure. -/
def clientPush (status : Nat) (bodyError : Option String) (body : PushResult) :
    Except ClientError PushResult :=
  if respOk status then .ok body
  else
    match bodyError with
    | some msg =>
      if msg = "" then .error (.requestFailed ("Push failed") status)
      else .error (.serverMessage msg)
    | none => .error (.requestFailed ("Push failed") status)

example : tarDecode (pack [([], [])] 7) = some [([], [])] := rfl

example : tarDecode (mkHeader [97] 3 0 ++ [1, 2, 3] ++ List.replicate 509 0) =
    some [([97], [1, 2, 3])] := rfl

/-! ## Basic facts about the byte-level helpers -/

theorem octDigitsRev_digits {fuel n : Nat} :
    ∀ b ∈ octDigitsRev fuel n, 48 ≤ b ∧ b ≤ 55 := by
  induction fuel generalizing n with
  | zero => intro b hb; simp [octDigitsRev] at hb
  | succ fuel ih =>
    intro b hb
    by_cases hn : n = 0
    · simp [octDigitsRev, hn] at hb
    · simp only [octDigitsRev, if_neg hn, List.mem_cons] at hb
      rcases hb with hb | hb
      · subst hb
        have : n % 8 < 8 := Nat.mod_lt _ (by omega)
        omega
      · exact ih b hb

theorem octStr_digits {n : Nat} : ∀ b ∈ octStr n, 48 ≤ b ∧ b ≤ 55 := by
  intro b hb
  unfold octStr at hb
  by_cases hn : n = 0
  · simp [hn] at hb; omega
  · rw [if_neg hn, List.mem_reverse] at hb
    exact octDigitsRev_digits b hb

theorem octStr_ne_nil (n : Nat) : octStr n ≠ [] := by
  unfold octStr
  by_cases hn : n = 0
  · simp [hn]
  · rw [if_neg hn]
    intro h
    rw [List.reverse_eq_nil_iff] at h
    cases n with
    | zero => exact hn rfl
    | succ m => simp [octDigitsRev, Nat.succ_ne_zero] at h

theorem octDigitsRev_length {fuel n k : Nat} (hf : n ≤ fuel) (hk : n < 8 ^ k) :
    (octDigitsRev fuel n).length ≤ k := by
  induction fuel generalizing n k with
  | zero => simp [octDigitsRev]
  | succ fuel ih =>
    by_cases hn : n = 0
    · simp [octDigitsRev, hn]
    · rw [octDigitsRev, if_neg hn]
      cases k with
      | zero => simp at hk; omega
      | succ k =>
        simp only [List.length_cons]
        have h1 : n / 8 ≤ fuel := by
          have : n / 8 < n := Nat.div_lt_self (by omega) (by omega)
          omega
        have h2 : n / 8 < 8 ^ k := by
          have : n < 8 * 8 ^ k := by rw [← pow_succ']; exact hk
          exact Nat.div_lt_of_lt_mul this
        have := ih h1 h2
        omega

theorem octStr_length_le {n k : Nat} (hk0 : 0 < k) (hk : n < 8 ^ k) :
    (octStr n).length ≤ k := by
  unfold octStr
  by_cases hn : n = 0
  · simp [hn]; omega
  · rw [if_neg hn, List.length_reverse]
    exact octDigitsRev_length le_rfl hk

theorem octVal_append (l : List Nat) (d : Nat) :
    octVal (l ++ [d]) = octVal l * 8 + (d - 48) := by
  unfold octVal
  rw [List.foldl_append]
  rfl

theorem octVal_octStr (n : Nat) : octVal (octStr n) = n := by
  suffices h : ∀ fuel m, m ≤ fuel → octVal ((octDigitsRev fuel m).reverse) = m by
    unfold octStr
    by_cases hn : n = 0
    · simp [hn]; rfl
    · rw [if_neg hn]; exact h n n le_rfl
  intro fuel
  induction fuel with
  | zero => intro m hm; interval_cases m; rfl
  | succ fuel ih =>
    intro m hm
    by_cases hm0 : m = 0
    · simp [octDigitsRev, hm0]; rfl
    · rw [octDigitsRev, if_neg hm0]
      simp only [List.reverse_cons]
      rw [octVal_append]
      have h1 : m / 8 ≤ fuel := by
        have : m / 8 < m := Nat.div_lt_self (by omega) (by omega)
        omega
      rw [ih _ h1]
      have h2 : m % 8 < 8 := Nat.mod_lt _ (by omega)
      omega

theorem octVal_replicate_48 (k : Nat) (l : List Nat) :
    octVal (List.replicate k 48 ++ l) = octVal l := by
  induction k with
  | zero => rfl
  | succ k ih =>
    rw [List.replicate_succ, List.cons_append]
    show octVal (List.replicate k 48 ++ l) = octVal l
    exact ih

theorem octField_eq_padOctal {n len : Nat} (h : (octStr n).length ≤ len - 1) :
    octField n len = padOctal n len := by
  have h1 : 0 < (octStr n).length := List.length_pos.mpr (octStr_ne_nil n)
  apply List.take_of_length_le
  simp [padOctal, leftPad, List.length_append, List.length_replicate]
  omega

theorem octField_length (n len : Nat) :
    (octField n len).length = len := by
  have h1 : 0 < (octStr n).length := List.length_pos.mpr (octStr_ne_nil n)
  rw [octField, List.length_take]
  simp [padOctal, leftPad, List.length_append, List.length_replicate]
  omega

theorem fieldBytes_length (name : List Nat) (len : Nat) :
    (fieldBytes name len).length = len := by
  simp only [fieldBytes, List.length_append, List.length_replicate, List.length_take]
  omega

theorem mkHeaderPre_length (name : List Nat) (dataLen mtime : Nat) :
    (mkHeaderPre name dataLen mtime).length = 512 := by
  simp [mkHeaderPre, fieldBytes_length, octField_length]

theorem mkHeader_length (name : List Nat) (dataLen mtime : Nat) :
    (mkHeader name dataLen mtime).length = 512 := by
  have h := mkHeaderPre_length name dataLen mtime
  simp [mkHeader, octField_length, List.length_take, List.length_drop, h]

/-! ## Stripping, trimming and parsing lemmas -/

theorem stripTrailZeros_append_replicate (l : List Nat) (k : Nat) :
    stripTrailZeros (l ++ List.replicate k 0) = stripTrailZeros l := by
  unfold stripTrailZeros
  rw [List.reverse_append, List.reverse_replicate, List.dropWhile_append]
  have hdrop : List.dropWhile (fun b => b = 0) (List.replicate k 0) = [] := by
    rw [List.dropWhile_eq_nil_iff]
    intro x hx
    simp [List.eq_of_mem_replicate hx]
  rw [hdrop]
  simp

theorem stripTrailZeros_of_getLast_ne (l : List Nat) (h : ∀ b ∈ l.getLast?, b ≠ 0) :
    stripTrailZeros l = l := by
  unfold stripTrailZeros
  cases hl : l.reverse with
  | nil =>
    have : l = [] := by simpa using congrArg List.reverse hl
    simp [this]
  | cons a t =>
    have ha : a ∈ l.getLast? := by
      rw [List.getLast?_eq_head?_reverse, hl]
      simp
    have : ¬ (a = 0) := h a ha
    rw [List.dropWhile_cons_of_neg (by simpa using this)]
    rw [← hl, List.reverse_reverse]

theorem stripTrailZeros_of_all_digits (l : List Nat) (h : ∀ b ∈ l, 48 ≤ b) :
    stripTrailZeros l = l := by
  apply stripTrailZeros_of_getLast_ne
  intro b hb
  have : b ∈ l := by
    cases hl : l.getLast? with
    | none => simp [hl] at hb
    | some a =>
      rw [hl] at hb
      simp at hb
      subst hb
      exact List.mem_of_mem_getLast? (by rw [hl]; simp)
  have := h b this
  omega

theorem trimBytes_of_no_ws (l : List Nat) (h : ∀ b ∈ l, isWsByte b = false) :
    trimBytes l = l := by
  unfold trimBytes
  have h1 : l.dropWhile isWsByte = l := by
    rw [List.dropWhile_eq_self_iff]
    intro hl
    simp only [List.get_eq_getElem, Bool.not_eq_true]
    exact h _ (List.getElem_mem hl)
  rw [h1]
  have h2 : l.reverse.dropWhile isWsByte = l.reverse := by
    rw [List.dropWhile_eq_self_iff]
    intro hl
    simp only [List.get_eq_getElem, Bool.not_eq_true]
    have hmem := List.getElem_mem hl
    rw [List.mem_reverse] at hmem
    exact h _ hmem
  rw [h2, List.reverse_reverse]

theorem parseOctDigits_of_all (l : List Nat) (hne : l ≠ [])
    (h : ∀ b ∈ l, isOctDigitB b = true) :
    parseOctDigits l = some (octVal l) := by
  unfold parseOctDigits
  have ht : l.takeWhile isOctDigitB = l := List.takeWhile_eq_self_iff.mpr h
  rw [ht]
  simp [List.isEmpty_iff, hne]

theorem parseIntOct_of_digits (l : List Nat) (hne : l ≠ [])
    (h : ∀ b ∈ l, 48 ≤ b ∧ b ≤ 55) :
    parseIntOct l = some ((octVal l : Nat) : Int) := by
  have hdig : ∀ b ∈ l, isOctDigitB b = true := by
    intro b hb
    have := h b hb
    simp [isOctDigitB]
    omega
  cases l with
  | nil => exact absurd rfl hne
  | cons b rest =>
    have hb := h b (by simp)
    rw [parseIntOct]
    rw [if_neg (by omega), if_neg (by omega)]
    rw [parseOctDigits_of_all _ (by simp) hdig]
    rfl

/-! ## Slicing lemmas for `jsSub` -/

theorem jsSub_natCast (l : List Nat) (a b : Nat) :
    jsSub l (a : Int) (b : Int) = (l.drop a).take (b - a) := by
  simp only [jsSub]
  have ha : ¬ ((a : Int) < 0) := by omega
  have hb : ¬ ((b : Int) < 0) := by omega
  rw [if_neg ha, if_neg hb]
  have hmin1 : min (a : Int) (l.length : Int) = ((min a l.length : Nat) : Int) := by
    simp [Nat.cast_min]
  have hmin2 : min (b : Int) (l.length : Int) = ((min b l.length : Nat) : Int) := by
    simp [Nat.cast_min]
  rw [hmin1, hmin2]
  by_cases hab : (min a l.length) < (min b l.length)
  · rw [if_pos (by exact_mod_cast hab)]
    have h1 : ((min a l.length : Nat) : Int).toNat = min a l.length := Int.toNat_ofNat _
    have h2 : (((min b l.length : Nat) : Int) - ((min a l.length : Nat) : Int)).toNat
        = min b l.length - min a l.length := by
      omega
    rw [h1, h2]
    have haL : a < l.length := by omega
    rw [min_eq_left haL.le]
    by_cases hbL : b ≤ l.length
    · rw [min_eq_left hbL]
    · rw [min_eq_right (by omega)]
      have hlen : (l.drop a).length = l.length - a := List.length_drop a l
      rw [List.take_of_length_le (by omega), List.take_of_length_le (by omega)]
  · rw [if_neg (by exact_mod_cast hab)]
    by_cases haL : l.length ≤ a
    · rw [List.drop_eq_nil_of_le haL, List.take_nil]
    · have : b ≤ a := by omega
      rw [(by omega : b - a = 0), List.take_zero]

theorem mem_of_mem_jsSub {b : Nat} {l : List Nat} {s e : Int} (h : b ∈ jsSub l s e) :
    b ∈ l := by
  unfold jsSub at h
  by_cases hc : (if s < 0 then max ((l.length : Int) + s) 0 else min s (l.length : Int)) <
      (if e < 0 then max ((l.length : Int) + e) 0 else min e (l.length : Int))
  · rw [if_pos hc] at h
    exact List.mem_of_mem_drop (List.mem_of_mem_take h)
  · rw [if_neg hc] at h
    simp at h

/-! ## Step lemmas for the decoder loop -/

theorem extractLoop_step_out (tar : List Nat) (fuel : Nat) (offset : Int)
    (acc : List (List Nat × List Nat)) (h : ¬ (offset + 512 ≤ (tar.length : Int))) :
    extractLoop tar (fuel + 1) offset acc = some acc.reverse := by
  rw [extractLoop, if_neg h]

theorem extractLoop_step_zero (tar : List Nat) (fuel : Nat) (offset : Int)
    (acc : List (List Nat × List Nat)) (h : offset + 512 ≤ (tar.length : Int))
    (hz : (jsSub tar offset (offset + 512)).all (· = 0) = true) :
    extractLoop tar (fuel + 1) offset acc = some acc.reverse := by
  rw [extractLoop, if_pos h]
  simp only [hz]
  rw [if_pos trivial]

theorem extractLoop_step_nan (tar : List Nat) (fuel : Nat) (offset : Int)
    (acc : List (List Nat × List Nat)) (h : offset + 512 ≤ (tar.length : Int))
    (hz : (jsSub tar offset (offset + 512)).all (· = 0) = false)
    (hp : parseIntOct (trimBytes (stripTrailZeros
      (jsSub (jsSub tar offset (offset + 512)) 124 136))) = none) :
    extractLoop tar (fuel + 1) offset acc = some acc.reverse := by
  rw [extractLoop, if_pos h]
  simp only [hz, Bool.false_eq_true, if_false, hp]

theorem extractLoop_step_entry (tar : List Nat) (fuel : Nat) (offset : Int)
    (acc : List (List Nat × List Nat)) (size : Int)
    (h : offset + 512 ≤ (tar.length : Int))
    (hz : (jsSub tar offset (offset + 512)).all (· = 0) = false)
    (hp : parseIntOct (trimBytes (stripTrailZeros
      (jsSub (jsSub tar offset (offset + 512)) 124 136))) = some size) :
    extractLoop tar (fuel + 1) offset acc =
      extractLoop tar fuel
        (offset + 512 + size +
          (if 0 < Int.tmod size 512 then 512 - Int.tmod size 512 else 0))
        ((stripTrailZeros (jsSub (jsSub tar offset (offset + 512)) 0 100),
          jsSub tar (offset + 512) (offset + 512 + size)) :: acc) := by
  rw [extractLoop, if_pos h]
  simp only [hz, Bool.false_eq_true, if_false, hp]

/-! ## Header slicing lemmas -/

theorem mkHeaderPre_take_148 (name : List Nat) (d m : Nat) :
    (mkHeaderPre name d m).take 148 =
      fieldBytes name 100 ++ octField 420 8 ++ octField 0 8 ++ octField 0 8 ++
        octField d 12 ++ octField m 12 := by
  have hsplit : mkHeaderPre name d m =
      (fieldBytes name 100 ++ octField 420 8 ++ octField 0 8 ++ octField 0 8 ++
        octField d 12 ++ octField m 12) ++
      (List.replicate 8 0 ++ [48] ++ List.replicate 100 0 ++
        [117, 115, 116, 97, 114, 0] ++ [48, 48] ++ List.replicate 247 0) := by
    simp [mkHeaderPre, List.append_assoc]
  rw [hsplit]
  apply List.take_left'
  simp [fieldBytes_length, octField_length]

theorem mkHeader_decomp (name : List Nat) (d m : Nat) :
    mkHeader name d m =
      (fieldBytes name 100 ++ octField 420 8 ++ octField 0 8 ++ octField 0 8 ++
        octField d 12 ++ octField m 12) ++
      octField (headerChecksum (mkHeaderPre name d m)) 7 ++ [32] ++
      ((mkHeaderPre name d m).drop 156) := by
  rw [mkHeader]
  rw [mkHeaderPre_take_148]

theorem mkHeader_take_100 (name : List Nat) (d m : Nat) :
    (mkHeader name d m).take 100 = fieldBytes name 100 := by
  have hsplit : mkHeader name d m = fieldBytes name 100 ++
      (octField 420 8 ++ octField 0 8 ++ octField 0 8 ++ octField d 12 ++
        octField m 12 ++ octField (headerChecksum (mkHeaderPre name d m)) 7 ++
        [32] ++ ((mkHeaderPre name d m).drop 156)) := by
    rw [mkHeader_decomp]
    simp [List.append_assoc]
  rw [hsplit]
  exact List.take_left' (fieldBytes_length name 100)

theorem mkHeader_drop_124_take_12 (name : List Nat) (d m : Nat) :
    ((mkHeader name d m).drop 124).take 12 = octField d 12 := by
  have hsplit : mkHeader name d m =
      (fieldBytes name 100 ++ octField 420 8 ++ octField 0 8 ++ octField 0 8) ++
      (octField d 12 ++ (octField m 12 ++ octField (headerChecksum (mkHeaderPre name d m)) 7 ++
        [32] ++ ((mkHeaderPre name d m).drop 156))) := by
    rw [mkHeader_decomp]
    simp [List.append_assoc]
  rw [hsplit]
  rw [List.drop_left' (by simp [fieldBytes_length, octField_length])]
  rw [List.take_append_of_le_length (by simp [octField_length])]
  exact List.take_of_length_le (by simp [octField_length])

theorem mem_32_mkHeader (name : List Nat) (d m : Nat) : 32 ∈ mkHeader name d m := by
  rw [mkHeader_decomp]
  simp

/-- The size field of a header for `d` bytes of data, with `d < 8 ^ 11` (every
JavaScript Buffer is far shorter), parses back to `d`. -/
theorem sizeField_parse (name : List Nat) (d m : Nat) (hd : d < 8 ^ 11) :
    parseIntOct (trimBytes (stripTrailZeros (jsSub (mkHeader name d m) 124 136))) =
      some ((d : Nat) : Int) := by
  have hslice : jsSub (mkHeader name d m) 124 136 = ((mkHeader name d m).drop 124).take 12 := by
    have := jsSub_natCast (mkHeader name d m) 124 136
    exact_mod_cast this
  rw [hslice, mkHeader_drop_124_take_12]
  have hoct : octField d 12 = List.replicate (11 - (octStr d).length) 48 ++ octStr d ++ [0] := by
    rw [octField_eq_padOctal (by simpa using octStr_length_le (by omega) hd)]
    simp [padOctal, leftPad, List.append_assoc]
  rw [hoct]
  have hstrip : stripTrailZeros (List.replicate (11 - (octStr d).length) 48 ++ octStr d ++ [0]) =
      List.replicate (11 - (octStr d).length) 48 ++ octStr d := by
    have h1 : List.replicate (11 - (octStr d).length) 48 ++ octStr d ++ [0] =
        (List.replicate (11 - (octStr d).length) 48 ++ octStr d) ++ List.replicate 1 0 := by
      simp [List.append_assoc]
    rw [h1, stripTrailZeros_append_replicate]
    apply stripTrailZeros_of_all_digits
    intro b hb
    rcases List.mem_append.mp hb with hb | hb
    · simp [List.eq_of_mem_replicate hb]
    · exact (octStr_digits b hb).1
  rw [hstrip]
  have hdig : ∀ b ∈ List.replicate (11 - (octStr d).length) 48 ++ octStr d, 48 ≤ b ∧ b ≤ 55 := by
    intro b hb
    rcases List.mem_append.mp hb with hb | hb
    · have := List.eq_of_mem_replicate hb
      omega
    · exact octStr_digits b hb
  rw [trimBytes_of_no_ws _ (by intro b hb; have := hdig b hb; simp [isWsByte]; omega)]
  rw [parseIntOct_of_digits _ (by simp [octStr_ne_nil]) hdig]
  rw [octVal_replicate_48, octVal_octStr]

theorem nameField_strip (name : List Nat) (d m : Nat) :
    stripTrailZeros (jsSub (mkHeader name d m) 0 100) = stripTrailZeros (name.take 100) := by
  have hslice : jsSub (mkHeader name d m) 0 100 = ((mkHeader name d m).drop 0).take 100 := by
    have := jsSub_natCast (mkHeader name d m) 0 100
    exact_mod_cast this
  rw [hslice, List.drop_zero, mkHeader_take_100, fieldBytes]
  exact stripTrailZeros_append_replicate _ _

/-! ## The single-entry round trip -/

theorem pack_single (name data : List Nat) (mtime : Nat) :
    pack [(name, data)] mtime =
      mkHeader name data.length mtime ++
        (data ++ (padBlock data.length ++ List.replicate 1024 0)) := by
  simp [pack, packEntry, padBlock, List.append_assoc]

theorem padBlock_mem (d : Nat) : ∀ b ∈ padBlock d, b = 0 := by
  intro b hb
  unfold padBlock at hb
  split at hb
  · simp at hb
  · exact List.eq_of_mem_replicate hb

theorem padBlock_length (d : Nat) :
    (padBlock d).length = if d % 512 = 0 then 0 else 512 - d % 512 := by
  unfold padBlock
  split <;> simp

/-- Decoding an archive that `pack` produced from a single entry recovers the
entry, with the name truncated to its first 100 bytes and trailing NUL bytes
stripped. -/
theorem tarDecode_pack_single (name data : List Nat) (mtime : Nat)
    (hd : data.length < 8 ^ 11) :
    tarDecode (pack [(name, data)] mtime) =
      some [(stripTrailZeros (name.take 100), data)] := by
  have hpack := pack_single name data mtime
  set tar := pack [(name, data)] mtime with htar
  set d := data.length with hdd
  set H := mkHeader name d mtime with hHdef
  have hHlen : H.length = 512 := mkHeader_length _ _ _
  set P := padBlock d with hPdef
  have hPlen : P.length ≤ 512 := by rw [hPdef, padBlock_length]; split <;> omega
  have hlen : tar.length = 512 + (d + (P.length + 1024)) := by
    rw [hpack]; simp [hHlen]
  have hfuel : tar.length / 512 + 1 = (tar.length / 512 - 1) + 1 + 1 := by
    have : 512 ≤ tar.length := by omega
    have : 1 ≤ tar.length / 512 := Nat.one_le_div_iff (by omega) |>.mpr this
    omega
  rw [tarDecode, tarExtract, hfuel]
  have hheader : jsSub tar 0 512 = H := by
    have h1 : jsSub tar ((0 : Nat) : Int) ((512 : Nat) : Int) = (tar.drop 0).take (512 - 0) :=
      jsSub_natCast tar 0 512
    simp only [Nat.cast_ofNat, Nat.cast_zero] at h1
    rw [h1, List.drop_zero, hpack]
    exact List.take_left' hHlen
  have hz : (jsSub tar 0 512).all (· = 0) = false := by
    rw [hheader]
    exact List.all_eq_false.mpr ⟨32, mem_32_mkHeader name d mtime, by decide⟩
  have hp : parseIntOct (trimBytes (stripTrailZeros (jsSub (jsSub tar 0 512) 124 136))) =
      some ((d : Nat) : Int) := by
    rw [hheader, hHdef]
    exact sizeField_parse name d mtime hd
  have hstep1 := extractLoop_step_entry tar ((tar.length / 512 - 1) + 1) 0 [] ((d : Nat) : Int)
    (by push_cast [hlen]; omega) hz hp
  simp only [zero_add] at hstep1 hz hp
  rw [hstep1]
  have hname : stripTrailZeros (jsSub (jsSub tar 0 512) 0 100) =
      stripTrailZeros (name.take 100) := by
    rw [hheader, hHdef]
    exact nameField_strip name d mtime
  have hdata : jsSub tar 512 (512 + (d : Int)) = data := by
    have h1 : jsSub tar ((512 : Nat) : Int) (((512 + d : Nat)) : Int) =
        (tar.drop 512).take (512 + d - 512) := jsSub_natCast tar 512 (512 + d)
    push_cast at h1
    rw [h1, hpack]
    rw [List.drop_left' hHlen]
    rw [(by omega : 512 + d - 512 = d)]
    exact List.take_left' hdd.symm
  have hmod : Int.tmod ((d : Nat) : Int) 512 = ((d % 512 : Nat) : Int) := rfl
  have hoff : (512 : Int) + (d : Int) +
      (if 0 < Int.tmod ((d : Nat) : Int) 512 then 512 - Int.tmod ((d : Nat) : Int) 512 else 0) =
      ((512 + d + P.length : Nat) : Int) := by
    rw [hmod, hPdef, padBlock_length]
    by_cases hc : d % 512 = 0
    · rw [if_neg (by simp [hc]), if_pos hc]
      push_cast
      omega
    · have h0 : 0 < d % 512 := Nat.pos_of_ne_zero hc
      rw [if_pos (by exact_mod_cast h0), if_neg hc]
      have h512 : d % 512 < 512 := Nat.mod_lt _ (by omega)
      push_cast
      omega
  rw [hname, hdata, hoff]
  have hguard2 : ((512 + d + P.length : Nat) : Int) + 512 ≤ (tar.length : Int) := by
    push_cast [hlen]
    omega
  have hz2 : (jsSub tar ((512 + d + P.length : Nat) : Int)
      (((512 + d + P.length : Nat) : Int) + 512)).all (· = 0) = true := by
    have h1 : jsSub tar ((512 + d + P.length : Nat) : Int)
        (((512 + d + P.length + 512 : Nat)) : Int) =
        (tar.drop (512 + d + P.length)).take (512 + d + P.length + 512 - (512 + d + P.length)) :=
      jsSub_natCast tar _ _
    push_cast at h1 ⊢
    rw [h1]
    have hsplit : tar = (H ++ data ++ P) ++ List.replicate 1024 0 := by
      rw [hpack]; simp [List.append_assoc]
    rw [hsplit, List.drop_left' (by simp [hHlen, hdd]; omega)]
    rw [(by omega : 512 + d + P.length + 512 - (512 + d + P.length) = 512)]
    rw [List.take_replicate]
    rw [List.all_eq_true]
    intro x hx
    simp [List.eq_of_mem_replicate hx]
  rw [extractLoop_step_zero tar (tar.length / 512 - 1) _ _ hguard2 hz2]
  simp

/-! ## Totality of the decoder on buffers without a minus sign -/

theorem mem_of_mem_stripTrailZeros {b : Nat} {l : List Nat}
    (h : b ∈ stripTrailZeros l) : b ∈ l := by
  unfold stripTrailZeros at h
  rw [List.mem_reverse] at h
  have hsub := @List.dropWhile_sublist Nat l.reverse (fun x => decide (x = 0))
  have := hsub.subset h
  rwa [List.mem_reverse] at this

theorem mem_of_mem_trimBytes {b : Nat} {l : List Nat} (h : b ∈ trimBytes l) : b ∈ l := by
  unfold trimBytes at h
  rw [List.mem_reverse] at h
  have h1 := (@List.dropWhile_sublist Nat (l.dropWhile isWsByte).reverse isWsByte).subset h
  rw [List.mem_reverse] at h1
  exact (@List.dropWhile_sublist Nat l isWsByte).subset h1

theorem parseIntOct_nonneg {l : List Nat} (h45 : 45 ∉ l) {s : Int}
    (h : parseIntOct l = some s) : 0 ≤ s := by
  cases l with
  | nil => simp [parseIntOct] at h
  | cons b rest =>
    rw [parseIntOct] at h
    rw [if_neg (fun hb => h45 (by simp [hb]))] at h
    by_cases hb43 : b = 43
    · rw [if_pos hb43] at h
      cases hpd : parseOctDigits rest with
      | none => rw [hpd] at h; simp at h
      | some n => rw [hpd] at h; simp at h; omega
    · rw [if_neg hb43] at h
      cases hpd : parseOctDigits (b :: rest) with
      | none => rw [hpd] at h; simp at h
      | some n => rw [hpd] at h; simp at h; omega

/-- When no byte of the buffer is an ASCII minus sign (0x2D), every parsed
size is non-negative, so each loop iteration advances the offset by at least
512 bytes and fuel `tar.length / 512 + 1` is enough. -/
theorem extractLoop_isSome_of_no_minus (tar : List Nat) (h45 : 45 ∉ tar) :
    ∀ (fuel : Nat) (offset : Int) acc, 0 ≤ offset →
      (tar.length : Int) < offset + 512 * (fuel : Int) + 512 →
      (extractLoop tar (fuel + 1) offset acc).isSome = true := by
  intro fuel
  induction fuel with
  | zero =>
    intro offset acc h0 hb
    rw [extractLoop_step_out tar 0 offset acc (by push_cast at hb ⊢; omega)]
    rfl
  | succ fuel ih =>
    intro offset acc h0 hb
    by_cases hg : offset + 512 ≤ (tar.length : Int)
    · by_cases hz : (jsSub tar offset (offset + 512)).all (· = 0) = true
      · rw [extractLoop_step_zero _ _ _ _ hg hz]; rfl
      · have hz' : (jsSub tar offset (offset + 512)).all (· = 0) = false :=
          Bool.eq_false_iff.mpr hz
        cases hpc : parseIntOct (trimBytes (stripTrailZeros
            (jsSub (jsSub tar offset (offset + 512)) 124 136))) with
        | none => rw [extractLoop_step_nan _ _ _ _ hg hz' hpc]; rfl
        | some size =>
          have hsize : 0 ≤ size := by
            refine parseIntOct_nonneg (fun hmem => h45 ?_) hpc
            exact mem_of_mem_jsSub (mem_of_mem_jsSub
              (mem_of_mem_stripTrailZeros (mem_of_mem_trimBytes hmem)))
          rw [extractLoop_step_entry _ _ _ _ size hg hz' hpc]
          have hpad : 0 ≤ (if 0 < Int.tmod size 512 then 512 - Int.tmod size 512 else 0) := by
            split
            · have := Int.tmod_lt_of_pos size (show (0 : Int) < 512 by omega)
              omega
            · omega
          apply ih
          · omega
          · push_cast at hb ⊢
            omega
    · rw [extractLoop_step_out _ _ _ _ hg]; rfl

theorem tarDecode_isSome_of_no_minus (tar : List Nat) (h45 : 45 ∉ tar) :
    (tarDecode tar).isSome = true := by
  rw [tarDecode, tarExtract]
  apply extractLoop_isSome_of_no_minus tar h45
  · omega
  · have h1 : tar.length < 512 * (tar.length / 512) + 512 := by omega
    have h2 : ((tar.length : Nat) : Int) < ((512 * (tar.length / 512) + 512 : Nat) : Int) := by
      exact_mod_cast h1
    push_cast at h2
    omega

/-! ## Divergence of the decoder on a negative size field -/

theorem loopTar_step (fuel : Nat) (acc : List (List Nat × List Nat)) :
    extractLoop loopTar (fuel + 1) 0 acc = extractLoop loopTar fuel 0 (([], []) :: acc) := rfl

theorem loopTar_none : ∀ (fuel : Nat) (acc : List (List Nat × List Nat)),
    extractLoop loopTar fuel 0 acc = none
  | 0, _ => rfl
  | fuel + 1, acc => by
    rw [loopTar_step]
    exact loopTar_none fuel (([], []) :: acc)

theorem loopTar_not_terminates : ¬ tarTerminates loopTar := by
  rintro ⟨fuel, res, h⟩
  rw [tarExtract, loopTar_none fuel []] at h
  exact Option.noConfusion h

/-! ## The collation order is a linear order -/

theorem listCmp_cons_of_lt {a b : Nat} (as bs : List Nat) (h : a < b) :
    listCmp (a :: as) (b :: bs) = Ordering.lt := by
  rw [listCmp, Nat.compare_eq_lt.mpr h]

theorem listCmp_cons_of_gt {a b : Nat} (as bs : List Nat) (h : b < a) :
    listCmp (a :: as) (b :: bs) = Ordering.gt := by
  rw [listCmp, Nat.compare_eq_gt.mpr h]

theorem listCmp_cons_of_eq {a b : Nat} (as bs : List Nat) (h : a = b) :
    listCmp (a :: as) (b :: bs) = listCmp as bs := by
  rw [listCmp, Nat.compare_eq_eq.mpr h]

theorem listCmp_eq_iff : ∀ {x y : List Nat}, listCmp x y = Ordering.eq ↔ x = y := by
  intro x
  induction x with
  | nil => intro y; cases y <;> simp [listCmp]
  | cons a as ih =>
    intro y
    cases y with
    | nil => simp [listCmp]
    | cons b bs =>
      rcases Nat.lt_trichotomy a b with h | h | h
      · rw [listCmp_cons_of_lt as bs h]
        constructor
        · intro h'; exact absurd h' (by simp)
        · intro h'; injection h' with h1 h2; omega
      · subst h
        rw [listCmp_cons_of_eq as bs rfl]
        rw [ih]
        constructor
        · intro h'; rw [h']
        · intro h'; injection h'
      · rw [listCmp_cons_of_gt as bs h]
        constructor
        · intro h'; exact absurd h' (by simp)
        · intro h'; injection h' with h1 h2; omega

theorem listCmp_swap : ∀ (x y : List Nat), listCmp y x = (listCmp x y).swap := by
  intro x
  induction x with
  | nil => intro y; cases y <;> simp [listCmp, Ordering.swap]
  | cons a as ih =>
    intro y
    cases y with
    | nil => simp [listCmp, Ordering.swap]
    | cons b bs =>
      rcases Nat.lt_trichotomy a b with h | h | h
      · rw [listCmp_cons_of_lt as bs h, listCmp_cons_of_gt bs as h]
        rfl
      · subst h
        rw [listCmp_cons_of_eq as bs rfl, listCmp_cons_of_eq bs as rfl, ih]
      · rw [listCmp_cons_of_gt as bs h, listCmp_cons_of_lt bs as h]
        rfl

theorem listCmp_trans_lt : ∀ {x y z : List Nat},
    listCmp x y = Ordering.lt → listCmp y z = Ordering.lt → listCmp x z = Ordering.lt := by
  intro x
  induction x with
  | nil =>
    intro y z hxy hyz
    cases y with
    | nil => exact hyz
    | cons b bs =>
      cases z with
      | nil => simp [listCmp] at hyz
      | cons c cs => simp [listCmp]
  | cons a as ih =>
    intro y z hxy hyz
    cases y with
    | nil => simp [listCmp] at hxy
    | cons b bs =>
      cases z with
      | nil => simp [listCmp] at hyz
      | cons c cs =>
        rcases Nat.lt_trichotomy a b with h1 | h1 | h1
        · rcases Nat.lt_trichotomy b c with h2 | h2 | h2
          · exact listCmp_cons_of_lt as cs (by omega)
          · exact listCmp_cons_of_lt as cs (by omega)
          · rw [listCmp_cons_of_gt bs cs h2] at hyz
            exact absurd hyz (by simp)
        · subst h1
          rcases Nat.lt_trichotomy a c with h2 | h2 | h2
          · exact listCmp_cons_of_lt as cs h2
          · subst h2
            rw [listCmp_cons_of_eq as bs rfl] at hxy
            rw [listCmp_cons_of_eq bs cs rfl] at hyz
            rw [listCmp_cons_of_eq as cs rfl]
            exact ih hxy hyz
          · rw [listCmp_cons_of_gt bs cs h2] at hyz
            exact absurd hyz (by simp)
        · rw [listCmp_cons_of_gt as bs h1] at hxy
          exact absurd hxy (by simp)

theorem char_toNat_inj {a b : Char} (h : a.toNat = b.toNat) : a = b := by
  apply Char.ext
  exact UInt32.ext h

theorem charKeys_inj {x y : List Char}
    (hp : x.map charPrim = y.map charPrim) (hc : x.map charCaseKey = y.map charCaseKey) :
    x = y := by
  induction x generalizing y with
  | nil => cases y <;> simp_all
  | cons a as ih =>
    cases y with
    | nil => simp_all
    | cons b bs =>
      simp only [List.map_cons, List.cons.injEq] at hp hc
      have hab : a = b := by
        have h1 := hp.1
        have h2 := hc.1
        by_cases ha : 65 ≤ a.toNat ∧ a.toNat ≤ 90 <;>
          by_cases hb : 65 ≤ b.toNat ∧ b.toNat ≤ 90
        · rw [charPrim, if_pos ha, charPrim, if_pos hb] at h1
          exact char_toNat_inj (by omega)
        · rw [charCaseKey, if_pos ha, charCaseKey, if_neg hb] at h2
          omega
        · rw [charCaseKey, if_neg ha, charCaseKey, if_pos hb] at h2
          omega
        · rw [charPrim, if_neg ha, charPrim, if_neg hb] at h1
          exact char_toNat_inj h1
      rw [hab, ih hp.2 hc.2]

theorem localeCmp_of_prim_lt {a b : String}
    (h : listCmp (a.data.map charPrim) (b.data.map charPrim) = Ordering.lt) :
    localeCmp a b = Ordering.lt := by
  unfold localeCmp
  rw [h]

theorem localeCmp_of_prim_gt {a b : String}
    (h : listCmp (a.data.map charPrim) (b.data.map charPrim) = Ordering.gt) :
    localeCmp a b = Ordering.gt := by
  unfold localeCmp
  rw [h]

theorem localeCmp_of_prim_eq {a b : String}
    (h : listCmp (a.data.map charPrim) (b.data.map charPrim) = Ordering.eq) :
    localeCmp a b = listCmp (a.data.map charCaseKey) (b.data.map charCaseKey) := by
  unfold localeCmp
  rw [h]

theorem localeCmp_eq_iff {a b : String} : localeCmp a b = Ordering.eq ↔ a = b := by
  constructor
  · intro h
    rcases hp : listCmp (a.data.map charPrim) (b.data.map charPrim) with h1 | h1 | h1
    · rw [localeCmp_of_prim_lt hp] at h
      exact absurd h (by simp)
    · rw [localeCmp_of_prim_eq hp] at h
      exact String.ext (charKeys_inj (listCmp_eq_iff.mp hp) (listCmp_eq_iff.mp h))
    · rw [localeCmp_of_prim_gt hp] at h
      exact absurd h (by simp)
  · rintro rfl
    rw [localeCmp_of_prim_eq (listCmp_eq_iff.mpr rfl)]
    exact listCmp_eq_iff.mpr rfl

theorem localeCmp_swap (a b : String) : localeCmp b a = (localeCmp a b).swap := by
  rcases hp : listCmp (a.data.map charPrim) (b.data.map charPrim) with h | h | h
  · rw [localeCmp_of_prim_lt hp,
      localeCmp_of_prim_gt (by rw [listCmp_swap, hp]; rfl)]
    rfl
  · rw [localeCmp_of_prim_eq hp,
      localeCmp_of_prim_eq (by rw [listCmp_swap, hp]; rfl)]
    rw [listCmp_swap]
  · rw [localeCmp_of_prim_gt hp,
      localeCmp_of_prim_lt (by rw [listCmp_swap, hp]; rfl)]
    rfl

theorem localeCmp_trans_lt {a b c : String}
    (hab : localeCmp a b = Ordering.lt) (hbc : localeCmp b c = Ordering.lt) :
    localeCmp a c = Ordering.lt := by
  rcases hp1 : listCmp (a.data.map charPrim) (b.data.map charPrim) with h1 | h1 | h1
  · rcases hp2 : listCmp (b.data.map charPrim) (c.data.map charPrim) with h2 | h2 | h2
    · exact localeCmp_of_prim_lt (listCmp_trans_lt hp1 hp2)
    · have hpe := listCmp_eq_iff.mp hp2
      exact localeCmp_of_prim_lt (by rw [← hpe]; exact hp1)
    · rw [localeCmp_of_prim_gt hp2] at hbc
      exact absurd hbc (by simp)
  · have hpe := listCmp_eq_iff.mp hp1
    rw [localeCmp_of_prim_eq hp1] at hab
    rcases hp2 : listCmp (b.data.map charPrim) (c.data.map charPrim) with h2 | h2 | h2
    · exact localeCmp_of_prim_lt (by rw [hpe]; exact hp2)
    · rw [localeCmp_of_prim_eq hp2] at hbc
      have hpe2 := listCmp_eq_iff.mp hp2
      have hq : listCmp (a.data.map charPrim) (c.data.map charPrim) = Ordering.eq := by
        rw [hpe, hpe2]
        exact listCmp_eq_iff.mpr rfl
      rw [localeCmp_of_prim_eq hq]
      exact listCmp_trans_lt hab hbc
    · rw [localeCmp_of_prim_gt hp2] at hbc
      exact absurd hbc (by simp)
  · rw [localeCmp_of_prim_gt hp1] at hab
    exact absurd hab (by simp)

/-! ## The checksum sort -/

theorem lcR_trans : ∀ a b c : FileEntry, lcR a b → lcR b c → lcR a c := by
  intro a b c hab hbc
  unfold lcR at hab hbc ⊢
  rcases h1 : localeCmp a.path b.path with h | h | h
  · rcases h2 : localeCmp b.path c.path with h2' | h2' | h2'
    · rw [localeCmp_trans_lt h1 h2]
      simp
    · rw [localeCmp_eq_iff.mp h2] at h1
      rw [h1]
      simp
    · exact absurd h2 hbc
  · rw [localeCmp_eq_iff.mp h1]
    exact hbc
  · exact absurd h1 hab

theorem lcR_total : ∀ a b : FileEntry, lcR a b ∨ lcR b a := by
  intro a b
  unfold lcR
  rcases h : localeCmp a.path b.path with h1 | h1 | h1
  · left; simp [h]
  · left; simp [h]
  · right
    rw [localeCmp_swap, h]
    simp [Ordering.swap]

theorem pathLt_asymm {a b : FileEntry} (h1 : pathLt a b) (h2 : pathLt b a) : False := by
  unfold pathLt at h1 h2
  rw [localeCmp_swap, h1] at h2
  exact absurd h2 (by simp [Ordering.swap])

theorem sorted_insertionSort_pathLt (l : List FileEntry) (hnd : distinctPaths l) :
    (List.insertionSort lcR l).Pairwise pathLt := by
  haveI : IsTrans FileEntry lcR := ⟨lcR_trans⟩
  haveI : IsTotal FileEntry lcR := ⟨lcR_total⟩
  have hs := List.sorted_insertionSort lcR l
  have hperm := List.perm_insertionSort lcR l
  have hnd' : distinctPaths (List.insertionSort lcR l) :=
    (hperm.pairwise_iff (fun h => Ne.symm h)).mpr hnd
  refine (hs.and hnd').imp ?_
  rintro a b ⟨hle, hne⟩
  rcases h : localeCmp a.path b.path with h1 | h1 | h1
  · exact h
  · exact absurd (localeCmp_eq_iff.mp h) hne
  · exact absurd h (by simpa [lcR] using hle)

theorem insertionSort_eq_of_perm {l₁ l₂ : List FileEntry} (hp : l₁.Perm l₂)
    (hnd : distinctPaths l₁) : List.insertionSort lcR l₁ = List.insertionSort lcR l₂ := by
  haveI : IsAntisymm FileEntry pathLt :=
    ⟨fun a b h1 h2 => absurd (pathLt_asymm h1 h2) not_false⟩
  have hnd₂ : distinctPaths l₂ := (hp.pairwise_iff (fun h => Ne.symm h)).mp hnd
  exact List.eq_of_perm_of_sorted
    ((List.perm_insertionSort lcR l₁).trans (hp.trans (List.perm_insertionSort lcR l₂).symm))
    (sorted_insertionSort_pathLt l₁ hnd) (sorted_insertionSort_pathLt l₂ hnd₂)

theorem soulChecksum_perm {l₁ l₂ : List FileEntry} (hp : l₁.Perm l₂)
    (hnd : distinctPaths l₁) : soulChecksum l₁ = soulChecksum l₂ := by
  rw [soulChecksum, soulChecksum, insertionSort_eq_of_perm hp hnd]

/-! ## Injectivity of the modelled hash and of digest concatenation -/

theorem sha256_inj {a b : String} (h : sha256 a = sha256 b) : a = b := by
  unfold sha256 at h
  have hd := congrArg String.data h
  simp only [String.data_append] at hd
  have h1 := List.append_cancel_left hd
  have h2 := List.append_cancel_right h1
  exact String.ext h2

theorem join_data (l : List String) : (String.join l).data = (l.map String.data).flatten := by
  rw [String.join_eq]

theorem joinDigests_ne (A B : List FileEntry) (e e' : FileEntry)
    (hne : e.sha256 ≠ e'.sha256) :
    String.join ((A ++ e :: B).map (fun f => f.sha256)) ≠
      String.join ((A ++ e' :: B).map (fun f => f.sha256)) := by
  intro h
  have hd := congrArg String.data h
  rw [join_data, join_data] at hd
  simp only [List.map_append, List.map_cons, List.flatten_append, List.flatten_cons] at hd
  have h1 := List.append_cancel_left hd
  have h2 := List.append_cancel_right h1
  exact hne (String.ext h2)

/-! ## Replacing one digest leaves the sorted arrangement in place -/

theorem map_ite_eq_self (e e' : FileEntry) (l : List FileEntry) (h : e' ∉ l) :
    l.map (fun x => if x = e' then e else x) = l := by
  induction l with
  | nil => rfl
  | cons a t ih =>
    simp only [List.map_cons]
    rw [if_neg (fun ha => h (by rw [← ha]; exact List.mem_cons_self a t))]
    rw [ih (fun ht => h (List.mem_cons_of_mem a ht))]

theorem insertionSort_congr_middle (pre suf : List FileEntry) (e e' : FileEntry)
    (hpath : e.path = e'.path) (hnee : e ≠ e')
    (hnd : distinctPaths (pre ++ e :: suf)) :
    ∃ A B, List.insertionSort lcR (pre ++ e :: suf) = A ++ e :: B ∧
      List.insertionSort lcR (pre ++ e' :: suf) = A ++ e' :: B := by
  have hnd0 := hnd
  rw [distinctPaths, List.pairwise_append] at hnd0
  obtain ⟨hpre, hcons, hcross⟩ := hnd0
  rw [List.pairwise_cons] at hcons
  obtain ⟨hesuf, hsuf⟩ := hcons
  have hepre : e ∉ pre := fun hmem => (hcross e hmem e (by simp)) rfl
  have hesuf' : e ∉ suf := fun hmem => (hesuf e hmem) rfl
  have he'pre : e' ∉ pre := fun hmem => (hcross e' hmem e (by simp)) hpath.symm
  have he'suf : e' ∉ suf := fun hmem => (hesuf e' hmem) hpath
  have hnd₂ : distinctPaths (pre ++ e' :: suf) := by
    rw [distinctPaths, List.pairwise_append, List.pairwise_cons]
    refine ⟨hpre, ⟨fun b hb => hpath ▸ hesuf b hb, hsuf⟩, fun a ha b hb => ?_⟩
    rcases List.mem_cons.mp hb with rfl | hb
    · exact hpath ▸ hcross a ha e (by simp)
    · exact hcross a ha b (List.mem_cons_of_mem _ hb)
  have hperm₁ : (List.insertionSort lcR (pre ++ e :: suf)).Perm (pre ++ e :: suf) :=
    List.perm_insertionSort _ _
  have hperm₂ : (List.insertionSort lcR (pre ++ e' :: suf)).Perm (pre ++ e' :: suf) :=
    List.perm_insertionSort _ _
  have hφpath : ∀ x : FileEntry, ((if x = e' then e else x)).path = x.path := by
    intro x
    by_cases hx : x = e'
    · simp [hx, hpath]
    · simp [hx]
  have hmapL₂ : (pre ++ e' :: suf).map (fun x => if x = e' then e else x) = pre ++ e :: suf := by
    rw [List.map_append, List.map_cons]
    rw [map_ite_eq_self e e' pre he'pre, map_ite_eq_self e e' suf he'suf]
    simp
  have hperm₂' : ((List.insertionSort lcR (pre ++ e' :: suf)).map
      (fun x => if x = e' then e else x)).Perm (pre ++ e :: suf) := by
    rw [← hmapL₂]
    exact hperm₂.map _
  have hsort₂ := sorted_insertionSort_pathLt (pre ++ e' :: suf) hnd₂
  have hsort₂' : ((List.insertionSort lcR (pre ++ e' :: suf)).map
      (fun x => if x = e' then e else x)).Pairwise pathLt := by
    refine List.Pairwise.map _ ?_ hsort₂
    intro a b hab
    unfold pathLt at hab ⊢
    rw [hφpath, hφpath]
    exact hab
  have hsort₁ := sorted_insertionSort_pathLt (pre ++ e :: suf) hnd
  haveI : IsAntisymm FileEntry pathLt :=
    ⟨fun a b h1 h2 => absurd (pathLt_asymm h1 h2) not_false⟩
  have hs2'e : (List.insertionSort lcR (pre ++ e' :: suf)).map (fun x => if x = e' then e else x) =
      List.insertionSort lcR (pre ++ e :: suf) :=
    List.eq_of_perm_of_sorted (hperm₂'.trans hperm₁.symm) hsort₂' hsort₁
  have hemem : e ∈ List.insertionSort lcR (pre ++ e :: suf) := hperm₁.symm.subset (by simp)
  obtain ⟨A, B, hAB⟩ := List.append_of_mem hemem
  have hecount : (List.insertionSort lcR (pre ++ e :: suf)).count e = 1 := by
    rw [hperm₁.count_eq]
    rw [List.count_append]
    have h0pre : pre.count e = 0 := List.count_eq_zero.mpr hepre
    have h0suf : suf.count e = 0 := List.count_eq_zero.mpr hesuf'
    rw [h0pre, List.count_cons_self, h0suf]
  have heAB : e ∉ A ∧ e ∉ B := by
    rw [hAB, List.count_append, List.count_cons_self] at hecount
    constructor <;> rw [← List.count_eq_zero] <;> omega
  refine ⟨A, B, hAB, ?_⟩
  have hψφ : ((List.insertionSort lcR (pre ++ e' :: suf)).map (fun x => if x = e' then e else x)).map
      (fun x => if x = e then e' else x) = List.insertionSort lcR (pre ++ e' :: suf) := by
    rw [List.map_map]
    have hpt : ∀ x ∈ List.insertionSort lcR (pre ++ e' :: suf),
        ((fun x => if x = e then e' else x) ∘ (fun x => if x = e' then e else x)) x = id x := by
      intro x hx
      by_cases hxe' : x = e'
      · simp [hxe']
      · have hxe : x ≠ e := by
          intro hxe
          have hmem : e ∈ pre ++ e' :: suf := hperm₂.subset (hxe ▸ hx)
          rcases List.mem_append.mp hmem with h | h
          · exact hepre h
          · rcases List.mem_cons.mp h with h | h
            · exact hnee h
            · exact hesuf' h
        simp [hxe', hxe]
    rw [List.map_congr_left hpt, List.map_id]
  rw [hs2'e, hAB, List.map_append, List.map_cons] at hψφ
  rw [map_ite_eq_self e' e A heAB.1, map_ite_eq_self e' e B heAB.2] at hψφ
  rw [← hψφ]
  simp

theorem soulChecksum_change (pre suf : List FileEntry) (e e' : FileEntry)
    (hpath : e.path = e'.path) (hdig : e.sha256 ≠ e'.sha256)
    (hnd : distinctPaths (pre ++ e :: suf)) :
    soulChecksum (pre ++ e :: suf) ≠ soulChecksum (pre ++ e' :: suf) := by
  have hnee : e ≠ e' := fun h => hdig (h ▸ rfl)
  obtain ⟨A, B, h1, h2⟩ := insertionSort_congr_middle pre suf e e' hpath hnee hnd
  intro h
  rw [soulChecksum, soulChecksum, h1, h2] at h
  exact joinDigests_ne A B e e' hdig (sha256_inj h)

/-! ## The checksum field of a finished header -/

theorem mkHeader_take_148 (name : List Nat) (d m : Nat) :
    (mkHeader name d m).take 148 = (mkHeaderPre name d m).take 148 := by
  rw [mkHeader]
  rw [List.take_append_of_le_length (by
    simp [List.length_append, List.length_take, mkHeaderPre_length, octField_length])]
  rw [List.take_append_of_le_length (by
    simp [List.length_append, List.length_take, mkHeaderPre_length, octField_length])]
  rw [List.take_append_of_le_length (by
    simp [List.length_take, mkHeaderPre_length])]
  rw [List.take_take]
  simp

theorem mkHeader_drop_156 (name : List Nat) (d m : Nat) :
    (mkHeader name d m).drop 156 = (mkHeaderPre name d m).drop 156 := by
  rw [mkHeader]
  exact List.drop_left' (by
    simp [List.length_append, List.length_take, mkHeaderPre_length, octField_length])

theorem headerChecksum_mkHeader (name : List Nat) (d m : Nat) :
    headerChecksum (mkHeader name d m) = headerChecksum (mkHeaderPre name d m) := by
  rw [headerChecksum, headerChecksum, mkHeader_take_148, mkHeader_drop_156]

theorem octField_bytes_le (n len : Nat) : ∀ b ∈ octField n len, b ≤ 55 := by
  intro b hb
  have hmem := List.mem_of_mem_take hb
  rw [padOctal, leftPad] at hmem
  rcases List.mem_append.mp hmem with h | h
  · rcases List.mem_append.mp h with h1 | h1
    · rw [List.eq_of_mem_replicate h1]; omega
    · exact (octStr_digits b h1).2
  · simp at h
    omega

theorem fieldBytes_bytes_le (name : List Nat) (len : Nat) (hb : ∀ b ∈ name, b ≤ 255) :
    ∀ b ∈ fieldBytes name len, b ≤ 255 := by
  intro b hbm
  rw [fieldBytes] at hbm
  rcases List.mem_append.mp hbm with h | h
  · exact hb b (List.mem_of_mem_take h)
  · rw [List.eq_of_mem_replicate h]; omega

theorem mkHeaderPre_bytes_le (name : List Nat) (d m : Nat) (hb : ∀ b ∈ name, b ≤ 255) :
    ∀ b ∈ mkHeaderPre name d m, b ≤ 255 := by
  intro b hbm
  rw [mkHeaderPre] at hbm
  have hoct : ∀ (x k : Nat), b ∈ octField x k → b ≤ 255 := by
    intro x k h
    have := octField_bytes_le x k b h
    omega
  simp only [List.append_assoc, List.mem_append] at hbm
  rcases hbm with h | h | h | h | h | h | h | h | h | h | h | h
  · exact fieldBytes_bytes_le name 100 hb b h
  · exact hoct _ _ h
  · exact hoct _ _ h
  · exact hoct _ _ h
  · exact hoct _ _ h
  · exact hoct _ _ h
  · rw [List.eq_of_mem_replicate h]; omega
  · simp at h; omega
  · rw [List.eq_of_mem_replicate h]; omega
  · simp at h; omega
  · simp at h; omega
  · rw [List.eq_of_mem_replicate h]; omega

theorem headerChecksum_lt (name : List Nat) (d m : Nat) (hb : ∀ b ∈ name, b ≤ 255) :
    headerChecksum (mkHeaderPre name d m) < 8 ^ 6 := by
  have hbytes := mkHeaderPre_bytes_le name d m hb
  have hlen := mkHeaderPre_length name d m
  rw [headerChecksum]
  have h1 : ((mkHeaderPre name d m).take 148).sum ≤ 148 * 255 := by
    have := List.sum_le_card_nsmul ((mkHeaderPre name d m).take 148) 255
      (fun x hx => hbytes x (List.mem_of_mem_take hx))
    simpa [List.length_take, hlen, smul_eq_mul] using this
  have h2 : ((mkHeaderPre name d m).drop 156).sum ≤ 356 * 255 := by
    have := List.sum_le_card_nsmul ((mkHeaderPre name d m).drop 156) 255
      (fun x hx => hbytes x (List.mem_of_mem_drop hx))
    simpa [List.length_drop, hlen, smul_eq_mul] using this
  omega

/-! ## Clamped reads past the end of the buffer -/

theorem jsSub_clamp (l : List Nat) (s e : Int) (hs : 0 ≤ s) (hse : s ≤ e)
    (he : (l.length : Int) ≤ e) : jsSub l s e = l.drop s.toNat := by
  obtain ⟨a, rfl⟩ : ∃ a : Nat, s = (a : Int) := ⟨s.toNat, (Int.toNat_of_nonneg hs).symm⟩
  obtain ⟨b, rfl⟩ : ∃ b : Nat, e = (b : Int) := ⟨e.toNat, (Int.toNat_of_nonneg (hs.trans hse)).symm⟩
  rw [jsSub_natCast, Int.toNat_ofNat]
  apply List.take_of_length_le
  have hL : (l.drop a).length = l.length - a := List.length_drop a l
  have hlb : l.length ≤ b := by exact_mod_cast he
  omega

/-! ## The verification loop of extract -/

theorem verifyFiles_none {entries : List StrEntry} : ∀ {files : List FileEntry},
    verifyFiles entries files = none →
    ∀ f ∈ files, ∃ en, entries.find? (fun e => e.name == f.path) = some en ∧
      sha256Bytes en.data = f.sha256 := by
  intro files
  induction files with
  | nil => intro _ f hf; simp at hf
  | cons g rest ih =>
    intro hv f hf
    rw [verifyFiles] at hv
    cases hfind : entries.find? (fun e => e.name == g.path) with
    | none => rw [hfind] at hv; exact absurd hv (by simp)
    | some en =>
      rw [hfind] at hv
      have hv' : (if sha256Bytes en.data ≠ g.sha256 then
          some (ExtractError.integrityFailure g.path g.sha256 (sha256Bytes en.data))
        else verifyFiles entries rest) = none := hv
      by_cases hdig : sha256Bytes en.data ≠ g.sha256
      · rw [if_pos hdig] at hv'
        exact absurd hv' (by simp)
      · rw [if_neg hdig] at hv'
        rcases List.mem_cons.mp hf with rfl | hf
        · exact ⟨en, hfind, not_ne_iff.mp hdig⟩
        · exact ih hv' f hf

/-! ## Claim theorems -/

/-- C1: extract writes nothing to the destination until every verification
step has passed.  A missing `manifest.json` entry fails with
MissingManifest; the first failing per-file check fails with exactly the
error the verification loop reports (MissingFile for an absent entry,
IntegrityFailure for a digest mismatch); an aggregate mismatch after the
per-file checks fails with the aggregate IntegrityFailure; a successful
result certifies that every manifest file entry has a matching tar entry
(located by exact name) with a matching digest and that the recomputed
aggregate equals the recorded checksum; and whenever the call fails, its
list of performed writes is empty. -/
theorem c1_verification_before_write (parse : List Nat → Option SoulManifest)
    (entries : List StrEntry) (dryRun : Bool) :
    (∀ err, (extractSoulArchive parse entries dryRun).2 = .error err →
      (extractSoulArchive parse entries dryRun).1 = []) ∧
    (entries.find? (fun e => e.name == "manifest.json") = none →
      (extractSoulArchive parse entries dryRun).2 = .error .missingManifest) ∧
    (∀ mEntry manifest err0,
      entries.find? (fun e => e.name == "manifest.json") = some mEntry →
      parse mEntry.data = some manifest →
      verifyFiles entries manifest.files = some err0 →
      (extractSoulArchive parse entries dryRun).2 = .error err0) ∧
    (∀ mEntry manifest,
      entries.find? (fun e => e.name == "manifest.json") = some mEntry →
      parse mEntry.data = some manifest →
      verifyFiles entries manifest.files = none →
      soulChecksum manifest.files ≠ manifest.checksum →
      (extractSoulArchive parse entries dryRun).2 =
        .error (.integrityFailure ("aggregate") manifest.checksum
          (soulChecksum manifest.files))) ∧
    (∀ m, (extractSoulArchive parse entries dryRun).2 = .ok m →
      (∃ mEntry, entries.find? (fun e => e.name == "manifest.json") = some mEntry ∧
        parse mEntry.data = some m) ∧
      (∀ f ∈ m.files, ∃ en, entries.find? (fun e => e.name == f.path) = some en ∧
        sha256Bytes en.data = f.sha256) ∧
      soulChecksum m.files = m.checksum) := by
  cases hfind : entries.find? (fun e => e.name == "manifest.json") with
  | none =>
    have he : extractSoulArchive parse entries dryRun = ([], .error .missingManifest) := by
      simp only [extractSoulArchive, hfind]
    refine ⟨fun err h => by rw [he], fun _ => by rw [he],
      fun mE mn err0 hf => Option.noConfusion hf,
      fun mE mn hf => Option.noConfusion hf, fun m h => ?_⟩
    rw [he] at h
    exact absurd h (by simp)
  | some mE =>
    cases hparse : parse mE.data with
    | none =>
      have he : extractSoulArchive parse entries dryRun = ([], .error .manifestParseError) := by
        simp only [extractSoulArchive, hfind, hparse]
      refine ⟨fun err h => by rw [he], fun hn => Option.noConfusion hn, ?_, ?_, fun m h => ?_⟩
      · intro mE' mn err0 hf hp
        have hmE : mE = mE' := by simpa using hf
        rw [← hmE, hparse] at hp
        exact Option.noConfusion hp
      · intro mE' mn hf hp
        have hmE : mE = mE' := by simpa using hf
        rw [← hmE, hparse] at hp
        exact Option.noConfusion hp
      · rw [he] at h
        exact absurd h (by simp)
    | some manifest =>
      cases hverify : verifyFiles entries manifest.files with
      | some err0 =>
        have he : extractSoulArchive parse entries dryRun = ([], .error err0) := by
          simp only [extractSoulArchive, hfind, hparse, hverify]
        refine ⟨fun err h => by rw [he], fun hn => Option.noConfusion hn, ?_, ?_, fun m h => ?_⟩
        · intro mE' mn err1 hf hp hv
          have hmE : mE = mE' := by simpa using hf
          rw [← hmE, hparse] at hp
          have hmn : manifest = mn := by simpa using hp
          rw [← hmn, hverify] at hv
          have herr : err0 = err1 := by simpa using hv
          rw [he, ← herr]
        · intro mE' mn hf hp hv
          have hmE : mE = mE' := by simpa using hf
          rw [← hmE, hparse] at hp
          have hmn : manifest = mn := by simpa using hp
          rw [← hmn, hverify] at hv
          exact Option.noConfusion hv
        · rw [he] at h
          exact absurd h (by simp)
      | none =>
        by_cases hck : soulChecksum manifest.files ≠ manifest.checksum
        · have he : extractSoulArchive parse entries dryRun =
              ([], .error (.integrityFailure ("aggregate") manifest.checksum
                (soulChecksum manifest.files))) := by
            simp only [extractSoulArchive, hfind, hparse, hverify]
            simp [hck]
          refine ⟨fun err h => by rw [he], fun hn => Option.noConfusion hn, ?_, ?_,
            fun m h => ?_⟩
          · intro mE' mn err1 hf hp hv
            have hmE : mE = mE' := by simpa using hf
            rw [← hmE, hparse] at hp
            have hmn : manifest = mn := by simpa using hp
            rw [← hmn, hverify] at hv
            exact Option.noConfusion hv
          · intro mE' mn hf hp hv hck'
            have hmE : mE = mE' := by simpa using hf
            rw [← hmE, hparse] at hp
            have hmn : manifest = mn := by simpa using hp
            rw [he, ← hmn]
          · rw [he] at h
            exact absurd h (by simp)
        · have hok : (extractSoulArchive parse entries dryRun).2 = .ok manifest := by
            rcases Bool.eq_false_or_eq_true dryRun with hdr | hdr <;> rw [hdr]
            · have he : extractSoulArchive parse entries true = ([], .ok manifest) := by
                simp only [extractSoulArchive, hfind, hparse, hverify]
                simp [hck]
              rw [he]
            · have he : extractSoulArchive parse entries false =
                  ((("manifest.json"), mE.data) ::
                    manifest.files.map (fun f =>
                      (f.path, ((entries.find? (fun e => e.name == f.path)).map
                        (fun e => e.data)).getD [])), .ok manifest) := by
                simp only [extractSoulArchive, hfind, hparse, hverify]
                simp [hck]
              rw [he]
          refine ⟨?_, fun hn => Option.noConfusion hn, ?_, ?_, ?_⟩
          · intro err h
            rw [hok] at h
            exact absurd h (by simp)
          · intro mE' mn err1 hf hp hv
            have hmE : mE = mE' := by simpa using hf
            rw [← hmE, hparse] at hp
            have hmn : manifest = mn := by simpa using hp
            rw [← hmn, hverify] at hv
            exact Option.noConfusion hv
          · intro mE' mn hf hp hv hck'
            have hmE : mE = mE' := by simpa using hf
            rw [← hmE, hparse] at hp
            have hmn : manifest = mn := by simpa using hp
            rw [← hmn] at hck'
            exact absurd hck' hck
          · intro m h
            rw [hok] at h
            have hm : m = manifest := by simpa using h.symm
            subst hm
            exact ⟨⟨mE, rfl, hparse⟩, verifyFiles_none hverify, not_ne_iff.mp hck⟩

/-- Witness for C1 at a concrete archive: an entry list with no
manifest.json fails with MissingManifest and performs no write. -/
theorem c1_verification_before_write_witness :
    (extractSoulArchive (fun _ => none) [] false).2 =
        Except.error ExtractError.missingManifest ∧
      (extractSoulArchive (fun _ => none) [] false).1 = [] := by
  have h := c1_verification_before_write (fun _ => none) [] false
  have herr := h.2.1 (by rfl)
  exact ⟨herr, h.1 _ herr⟩

/-- C7: on every archive that passes verification, a dry-run extract
returns the verified manifest and performs no write at all; moreover a
non-dry-run extract of the same archive returns the same manifest. -/
theorem c7_dry_run_writes_nothing (parse : List Nat → Option SoulManifest)
    (entries : List StrEntry) (m : SoulManifest)
    (hok : (extractSoulArchive parse entries true).2 = .ok m) :
    (extractSoulArchive parse entries true).1 = [] ∧
      (extractSoulArchive parse entries false).2 = .ok m := by
  cases hfind : entries.find? (fun e => e.name == "manifest.json") with
  | none =>
    have he : extractSoulArchive parse entries true = ([], .error .missingManifest) := by
      simp only [extractSoulArchive, hfind]
    rw [he] at hok
    exact absurd hok (by simp)
  | some mE =>
    cases hparse : parse mE.data with
    | none =>
      have he : extractSoulArchive parse entries true = ([], .error .manifestParseError) := by
        simp only [extractSoulArchive, hfind, hparse]
      rw [he] at hok
      exact absurd hok (by simp)
    | some manifest =>
      cases hverify : verifyFiles entries manifest.files with
      | some err0 =>
        have he : extractSoulArchive parse entries true = ([], .error err0) := by
          simp only [extractSoulArchive, hfind, hparse, hverify]
        rw [he] at hok
        exact absurd hok (by simp)
      | none =>
        by_cases hck : soulChecksum manifest.files ≠ manifest.checksum
        · have he : extractSoulArchive parse entries true =
              ([], .error (.integrityFailure ("aggregate") manifest.checksum
                (soulChecksum manifest.files))) := by
            simp only [extractSoulArchive, hfind, hparse, hverify]
            simp [hck]
          rw [he] at hok
          exact absurd hok (by simp)
        · have he : extractSoulArchive parse entries true = ([], .ok manifest) := by
            simp only [extractSoulArchive, hfind, hparse, hverify]
            simp [hck]
          have hm : m = manifest := by
            rw [he] at hok
            simpa using hok.symm
          subst hm
          refine ⟨by rw [he], ?_⟩
          have he' : extractSoulArchive parse entries false =
              ((("manifest.json"), mE.data) ::
                m.files.map (fun f =>
                  (f.path, ((entries.find? (fun e => e.name == f.path)).map
                    (fun e => e.data)).getD [])), .ok m) := by
            simp only [extractSoulArchive, hfind, hparse, hverify]
            simp [hck]
          rw [he']

/-- Witness for C7 at a concrete verified archive: a manifest with no files
whose recorded checksum is the recomputed aggregate. -/
theorem c7_dry_run_writes_nothing_witness :
    (extractSoulArchive
        (fun _ => some ⟨("1.0"), ("a"), ("s"), ("t"), [], soulChecksum []⟩)
        [⟨("manifest.json"), []⟩] true).1 = [] ∧
      (extractSoulArchive
        (fun _ => some ⟨("1.0"), ("a"), ("s"), ("t"), [], soulChecksum []⟩)
        [⟨("manifest.json"), []⟩] false).2 =
        .ok ⟨("1.0"), ("a"), ("s"), ("t"), [], soulChecksum []⟩ :=
  c7_dry_run_writes_nothing _ _ _ (by rfl)

/-- C2 (amended): for every name of at most 100 bytes not ending in a NUL
byte and every data buffer (of any length, in particular empty or not a
multiple of 512), decoding an archive packed from the single entry yields
exactly that entry back. -/
theorem c2_single_entry_roundtrip (name data : List Nat) (mtime : Nat)
    (hlen : name.length ≤ 100) (hlast : ∀ b ∈ name.getLast?, b ≠ 0)
    (hdata : data.length < 8 ^ 11) :
    tarDecode (pack [(name, data)] mtime) = some [(name, data)] := by
  rw [tarDecode_pack_single name data mtime hdata, List.take_of_length_le hlen,
    stripTrailZeros_of_getLast_ne name hlast]

/-- Witness for C2 at a concrete entry with a 3-byte buffer (not a multiple
of 512). -/
theorem c2_single_entry_roundtrip_witness :
    tarDecode (pack [([97], [1, 2, 3])] 5) = some [([97], [1, 2, 3])] :=
  c2_single_entry_roundtrip [97] [1, 2, 3] 5 (by decide) (by decide) (by decide)

/-- Counterexample to C2 as stated: a 101-byte name does not round-trip —
the encoder silently truncates it to 100 bytes. -/
theorem c2_name_truncation_counterexample :
    tarDecode (pack [(List.replicate 101 97, [])] 0) ≠
      some [(List.replicate 101 97, [])] := by
  rw [tarDecode_pack_single _ _ _ (by decide)]
  decide

/-- C9 (amended): the decoder loop is total on every buffer that contains
no ASCII minus byte (0x2D) — no size field can then parse negative, so the
offset advances by at least one block per iteration; buffers shorter than
512 bytes always decode to the empty list; and a header whose size field
declares more bytes than remain yields an entry whose data is silently
clamped to the bytes actually present. -/
theorem c9_decoder_totality :
    (∀ tar : List Nat, 45 ∉ tar → ∃ res, tarDecode tar = some res) ∧
    (∀ tar : List Nat, tar.length < 512 → tarDecode tar = some []) ∧
    (∀ (tar : List Nat) (fuel : Nat) (offset size : Int)
        (acc : List (List Nat × List Nat)),
      0 ≤ offset → offset + 512 ≤ (tar.length : Int) →
      (jsSub tar offset (offset + 512)).all (· = 0) = false →
      parseIntOct (trimBytes (stripTrailZeros
        (jsSub (jsSub tar offset (offset + 512)) 124 136))) = some size →
      0 ≤ size → (tar.length : Int) < offset + 512 + size →
      extractLoop tar (fuel + 1) offset acc =
        extractLoop tar fuel
          (offset + 512 + size +
            (if 0 < Int.tmod size 512 then 512 - Int.tmod size 512 else 0))
          ((stripTrailZeros (jsSub (jsSub tar offset (offset + 512)) 0 100),
            tar.drop (offset + 512).toNat) :: acc)) := by
  refine ⟨?_, ?_, ?_⟩
  · intro tar h45
    have h := tarDecode_isSome_of_no_minus tar h45
    exact Option.isSome_iff_exists.mp h
  · intro tar hlen
    rw [tarDecode, tarExtract, Nat.div_eq_of_lt hlen]
    apply extractLoop_step_out
    push_cast
    omega
  · intro tar fuel offset size acc h0 hg hz hp hsize hover
    rw [extractLoop_step_entry tar fuel offset acc size hg hz hp]
    rw [jsSub_clamp tar (offset + 512) (offset + 512 + size) (by omega) (by omega) (by omega)]

/-- Witness for C9 at concrete buffers: a 3-byte buffer without a minus
byte decodes, and decodes to the empty list. -/
theorem c9_decoder_totality_witness :
    (∃ res, tarDecode [1, 2, 3] = some res) ∧ tarDecode [1, 2, 3] = some [] :=
  ⟨c9_decoder_totality.1 [1, 2, 3] (by decide),
    c9_decoder_totality.2.1 [1, 2, 3] (by decide)⟩

/-- Counterexample to C9 as stated: on the concrete 512-byte block whose
size field reads the octal text -1000, the decoder loop never terminates —
the offset returns to 0 on every iteration. -/
theorem c9_divergence_counterexample : ¬ tarTerminates loopTar :=
  loopTar_not_terminates

/-- C5 (amended): in every header block the encoder produces, the checksum
field at offset 148 holds the six-digit zero-padded octal rendering of the
unsigned sum of all 512 header bytes (the checksum field itself counted as
eight ASCII spaces), followed by a NUL at offset 154 and an ASCII space at
offset 155. -/
theorem c5_checksum_field_layout (name : List Nat) (d m : Nat)
    (hb : ∀ b ∈ name, b ≤ 255) :
    ((mkHeader name d m).drop 148).take 8 =
      leftPad 48 6 (octStr (headerChecksum (mkHeader name d m))) ++ [0, 32] := by
  rw [headerChecksum_mkHeader]
  have hck := headerChecksum_lt name d m hb
  have hlen6 : (octStr (headerChecksum (mkHeaderPre name d m))).length ≤ 6 :=
    octStr_length_le (by omega) hck
  have hC : octField (headerChecksum (mkHeaderPre name d m)) 7 =
      leftPad 48 6 (octStr (headerChecksum (mkHeaderPre name d m))) ++ [0] := by
    rw [octField_eq_padOctal (by simpa using hlen6), padOctal]
  have hlenC : (leftPad 48 6 (octStr (headerChecksum (mkHeaderPre name d m))) ++ [0]).length
      = 7 := by
    have h1 : 0 < (octStr (headerChecksum (mkHeaderPre name d m))).length :=
      List.length_pos.mpr (octStr_ne_nil _)
    simp [leftPad, List.length_append, List.length_replicate]
    omega
  rw [mkHeader]
  rw [show (mkHeaderPre name d m).take 148 ++
        octField (headerChecksum (mkHeaderPre name d m)) 7 ++ [32] ++
        (mkHeaderPre name d m).drop 156 =
      (mkHeaderPre name d m).take 148 ++
        (octField (headerChecksum (mkHeaderPre name d m)) 7 ++
          ([32] ++ (mkHeaderPre name d m).drop 156)) by simp [List.append_assoc]]
  rw [List.drop_left' (by simp [List.length_take, mkHeaderPre_length])]
  rw [hC]
  rw [List.take_append_eq_append_take]
  rw [List.take_of_length_le (by rw [hlenC]; omega), hlenC]
  rw [List.take_append_eq_append_take]
  simp

/-- Witness for C5 at a concrete header. -/
theorem c5_checksum_field_layout_witness :
    ((mkHeader [97] 0 0).drop 148).take 8 =
      leftPad 48 6 (octStr (headerChecksum (mkHeader [97] 0 0))) ++ [0, 32] :=
  c5_checksum_field_layout [97] 0 0 (by decide)

/-- Counterexample to C5 as stated: the checksum field of a concrete
produced header is not a seven-digit octal rendering followed by a NUL
(offset 154 holds the NUL already, so a seven-digit reading is impossible
alongside the space at offset 155). -/
theorem c5_seven_digit_counterexample :
    ¬ (((mkHeader [97] 0 0).drop 148).take 8 =
        leftPad 48 7 (octStr (headerChecksum (mkHeader [97] 0 0))) ++ [0] ∧
      ((mkHeader [97] 0 0).drop 155).take 1 = [32]) := by
  decide

/-- C3 (amended): for every list of entries with pairwise-distinct paths,
the aggregate checksum is invariant under every permutation of the list;
and replacing exactly one entry's digest (same path, same size, different
digest) changes the aggregate. -/
theorem c3_aggregate_order_independence :
    (∀ l₁ l₂ : List FileEntry, l₁.Perm l₂ → distinctPaths l₁ →
      soulChecksum l₁ = soulChecksum l₂) ∧
    (∀ (pre suf : List FileEntry) (e e' : FileEntry),
      e.path = e'.path → e.size = e'.size → e.sha256 ≠ e'.sha256 →
      distinctPaths (pre ++ e :: suf) →
      soulChecksum (pre ++ e :: suf) ≠ soulChecksum (pre ++ e' :: suf)) :=
  ⟨fun _ _ hp hnd => soulChecksum_perm hp hnd,
    fun pre suf e e' hpath _ hdig hnd => soulChecksum_change pre suf e e' hpath hdig hnd⟩

/-- Witness for C3 at concrete entries: the aggregate of two distinct-path
entries is permutation invariant, and changing the single entry's digest
changes the aggregate. -/
theorem c3_aggregate_order_independence_witness :
    soulChecksum [⟨("a"), ("d1"), 1⟩, ⟨("b"), ("d2"), 2⟩] =
        soulChecksum [⟨("b"), ("d2"), 2⟩, ⟨("a"), ("d1"), 1⟩] ∧
      soulChecksum [⟨("a"), ("d1"), 1⟩] ≠ soulChecksum [⟨("a"), ("d3"), 1⟩] :=
  ⟨c3_aggregate_order_independence.1 _ _ (by decide) (by
      rw [distinctPaths]
      refine List.Pairwise.cons ?_ (List.pairwise_singleton _ _)
      intro b hb
      rw [List.mem_singleton.mp hb]
      decide),
    c3_aggregate_order_independence.2 [] [] ⟨("a"), ("d1"), 1⟩ ⟨("a"), ("d3"), 1⟩
      rfl rfl (by decide) (by
      rw [distinctPaths]
      exact List.pairwise_singleton _ _)⟩

/-- Counterexample to C3 as stated: with two entries sharing one path, a
permutation changes the aggregate — the stable sort keeps equal-path
entries in input order, so the digests concatenate in a different order. -/
theorem c3_duplicate_path_counterexample :
    ([⟨("p"), ("x"), 0⟩, ⟨("p"), ("y"), 0⟩] : List FileEntry).Perm
        [⟨("p"), ("y"), 0⟩, ⟨("p"), ("x"), 0⟩] ∧
      soulChecksum [⟨("p"), ("x"), 0⟩, ⟨("p"), ("y"), 0⟩] ≠
        soulChecksum [⟨("p"), ("y"), 0⟩, ⟨("p"), ("x"), 0⟩] := by
  constructor
  · exact List.Perm.swap _ _ _
  · decide

/-- C4 (amended): the aggregate checksum equals the hash of the digest
strings concatenated in the order given by sorting the entries by path
under the default-locale collation order that `localeCompare` implements —
not under byte-lexicographic ordering. -/
theorem c4_aggregate_uses_collation_order :
    ∀ files : List FileEntry, soulChecksum files = aggregateColl files :=
  fun _ => rfl

/-- Counterexample to C4 as stated: on paths B and a, the collation order
(a before B) disagrees with byte order (B before a), so the source
aggregate differs from the spec-worded byte-lexicographic aggregate. -/
theorem c4_byte_lex_counterexample :
    soulChecksum [⟨("B"), ("d1"), 0⟩, ⟨("a"), ("d2"), 0⟩] ≠
      aggregateSpec [⟨("B"), ("d1"), 0⟩, ⟨("a"), ("d2"), 0⟩] := by
  decide

/-- C6: for every request to one of the three authenticated operations
(get-manifest, get-archive, put-archive) whose bearer check fails — no
authorization header, a non-Bearer scheme, or a wrong token — the
dispatcher answers 401 Unauthorized and routes to none of the operation
handlers, so no business logic runs. -/
theorem c6_unauthorized_before_handlers (token : String) (req : STPRequest)
    (hop : (req.url = "/soul/manifest" ∧ req.method = "GET") ∨
      (req.url = "/soul" ∧ req.method = "GET") ∨
      (req.url = "/soul" ∧ req.method = "PUT"))
    (hauth : checkAuth req token = false) :
    routeRequest token req = RouteResult.unauthorized ∧
      routeStatus (routeRequest token req) = some 401 := by
  have hroute : routeRequest token req = RouteResult.unauthorized := by
    rw [routeRequest]
    rcases hop with ⟨hu, hm⟩ | ⟨hu, hm⟩ | ⟨hu, hm⟩ <;> rw [hu, hm] <;> simp [hauth]
  exact ⟨hroute, by rw [hroute]; rfl⟩

/-- Witness for C6 at a concrete request: a GET of the archive without any
authorization header is answered 401. -/
theorem c6_unauthorized_before_handlers_witness :
    routeRequest ("secret") ⟨("/soul"), ("GET"), none⟩ = RouteResult.unauthorized ∧
      routeStatus (routeRequest ("secret") ⟨("/soul"), ("GET"), none⟩) = some 401 :=
  c6_unauthorized_before_handlers ("secret") ⟨("/soul"), ("GET"), none⟩
    (Or.inr (Or.inl ⟨rfl, rfl⟩)) (by decide)

/-- C8 (amended): a non-success response to manifest, pull or push
surfaces as a thrown failure and the call never returns a value built from
the response — but the failure is the generic status-carrying one even
when the status is 401 (for push, the server-supplied error message is
used when the body carries a non-empty one). -/
theorem c8_nonsuccess_surfaces_failure (status : Nat) (body : SoulManifest)
    (verified : Except ExtractError SoulManifest) (bodyError : Option String)
    (pushBody : PushResult) (hok : respOk status = false) :
    clientManifest status body =
        .error (.requestFailed ("Manifest request failed") status) ∧
      clientPull status verified = .error (.requestFailed ("Pull failed") status) ∧
      (∃ e, clientPush status bodyError pushBody = .error e ∧
        (bodyError = none → e = .requestFailed ("Push failed") status) ∧
        (∀ msg, bodyError = some msg → msg ≠ "" → e = .serverMessage msg) ∧
        (bodyError = some ("") → e = .requestFailed ("Push failed") status)) := by
  refine ⟨?_, ?_, ?_⟩
  · rw [clientManifest, if_neg (by simp [hok])]
  · rw [clientPull, if_neg (by simp [hok])]
  · simp only [clientPush]
    rw [if_neg (by simp [hok])]
    cases bodyError with
    | none =>
      exact ⟨.requestFailed ("Push failed") status, rfl, fun _ => rfl,
        fun msg hmsg => absurd hmsg (by simp), fun hmsg => absurd hmsg (by simp)⟩
    | some msg =>
      have hshape : (match some msg with
          | some m => if m = "" then
              Except.error (ClientError.requestFailed ("Push failed") status)
            else Except.error (ClientError.serverMessage m)
          | none => Except.error (ClientError.requestFailed ("Push failed") status)) =
          (if msg = "" then
              Except.error (ClientError.requestFailed ("Push failed") status)
            else Except.error (ClientError.serverMessage msg) :
            Except ClientError PushResult) := rfl
      rw [hshape]
      by_cases hmsg : msg = ""
      · subst hmsg
        rw [if_pos rfl]
        exact ⟨.requestFailed ("Push failed") status, rfl, fun h => absurd h (by simp),
          fun m hm hne => absurd (by simpa using hm.symm) hne, fun _ => rfl⟩
      · rw [if_neg hmsg]
        refine ⟨.serverMessage msg, rfl, fun h => absurd h (by simp), ?_, ?_⟩
        · intro m hm _
          have : m = msg := by simpa using hm.symm
          rw [this]
        · intro h
          have : msg = "" := by simpa using h
          exact absurd this hmsg

/-- Witness for C8 at a concrete 500 response. -/
theorem c8_nonsuccess_surfaces_failure_witness :
    clientManifest 500 ⟨("1.0"), ("a"), ("s"), ("t"), [], ("c")⟩ =
        .error (.requestFailed ("Manifest request failed") 500) ∧
      clientPull 500 (.ok ⟨("1.0"), ("a"), ("s"), ("t"), [], ("c")⟩) =
        .error (.requestFailed ("Pull failed") 500) ∧
      (∃ e, clientPush 500 none ⟨true, ("m"), 0, ("c")⟩ = .error e ∧
        (none = (none : Option String) → e = .requestFailed ("Push failed") 500) ∧
        (∀ msg, (none : Option String) = some msg → msg ≠ "" → e = .serverMessage msg) ∧
        ((none : Option String) = some ("") → e = .requestFailed ("Push failed") 500)) :=
  c8_nonsuccess_surfaces_failure 500 ⟨("1.0"), ("a"), ("s"), ("t"), [], ("c")⟩
    (.ok ⟨("1.0"), ("a"), ("s"), ("t"), [], ("c")⟩) none ⟨true, ("m"), 0, ("c")⟩ (by decide)

/-- Counterexample to C8 as stated: a 401 response to the manifest call
does not surface as the distinct typed Unauthorized failure — it surfaces
as the same generic status-carrying failure used for every other
non-success status. -/
theorem c8_untyped_401_counterexample :
    clientManifest 401 ⟨("1.0"), ("a"), ("s"), ("t"), [], ("c")⟩ =
        .error (.requestFailed ("Manifest request failed") 401) ∧
      ClientError.requestFailed ("Manifest request failed") 401 ≠
        ClientError.unauthorized := by
  constructor
  · rfl
  · decide

/-- C10: the aggregate checksum computation never mutates its argument
list — the source spreads the array into a copy and sorts only the copy,
so the caller's array after the call is the original list, and the result
is the aggregate. -/
theorem c10_checksum_pure :
    ∀ files : List FileEntry, (soulChecksumRun files).2 = files ∧
      (soulChecksumRun files).1 = soulChecksum files := by
  intro files
  have hcopy : files.foldr (fun x acc => x :: acc) [] = files := by
    induction files with
    | nil => rfl
    | cons a t ih => simp only [List.foldr_cons, ih]
  exact ⟨rfl, by rw [soulChecksumRun, soulChecksum, hcopy]⟩

end SCP
